import Mathlib

/-!
Verification development for the FSPT path tracer (src/main.js, src/bvh.js).

The host-side scene compiler, BVH builder, serializer, autofocus traversal
and render loop are shallowly embedded over exact rationals.  JavaScript
numbers are modelled as rationals; where the control flow of the source
depends on the IEEE special values NaN and Infinity (the SAH cost loop and
the Int32Array reinterpretation) a dedicated symbolic type is used so that
those comparisons are reproduced faithfully.
-/

unseal Rat.add Rat.mul Rat.inv Rat.sub Rat.ofScientific

namespace FSPT

/-! ### Vector math (src/vector.js collaborators, pure 3-tuples) -/

abbrev Vec3 := ℚ × ℚ × ℚ

def dot (a b : Vec3) : ℚ := a.1 * b.1 + a.2.1 * b.2.1 + a.2.2 * b.2.2

def cross (a b : Vec3) : Vec3 :=
  (a.2.1 * b.2.2 - a.2.2 * b.2.1, a.2.2 * b.1 - a.1 * b.2.2, a.1 * b.2.1 - a.2.1 * b.1)

def vadd (a b : Vec3) : Vec3 := (a.1 + b.1, a.2.1 + b.2.1, a.2.2 + b.2.2)

def vsub (a b : Vec3) : Vec3 := (a.1 - b.1, a.2.1 - b.2.1, a.2.2 - b.2.2)

def vscale (a : Vec3) (s : ℚ) : Vec3 := (a.1 * s, a.2.1 * s, a.2.2 * s)

def vmin (a b : Vec3) : Vec3 := (min a.1 b.1, min a.2.1 b.2.1, min a.2.2 b.2.2)

def vmax (a b : Vec3) : Vec3 := (max a.1 b.1, max a.2.1 b.2.1, max a.2.2 b.2.2)

/-- Component access: axis 0 is x, axis 1 is y, any other value z. -/
def axisComp (v : Vec3) (a : ℕ) : ℚ := if a = 0 then v.1 else if a = 1 then v.2.1 else v.2.2

/-! ### Triangles and bounding boxes (src/bvh.js, classes Triangle and BoundingBox) -/

structure Triangle where
  v0 : Vec3
  v1 : Vec3
  v2 : Vec3
deriving DecidableEq

instance : Inhabited Triangle := ⟨⟨(0, 0, 0), (0, 0, 0), (0, 0, 0)⟩⟩

structure BoundingBox where
  bmin : Vec3
  bmax : Vec3
deriving DecidableEq

/-- BoundingBox.addTriangle: min and max over the three vertices. -/
def triBox (t : Triangle) : BoundingBox :=
  ⟨vmin t.v0 (vmin t.v1 t.v2), vmax t.v0 (vmax t.v1 t.v2)⟩

/-- BoundingBox.addBoundingBox: componentwise union of two boxes. -/
def boxUnion (a b : BoundingBox) : BoundingBox :=
  ⟨vmin a.bmin b.bmin, vmax a.bmax b.bmax⟩

/-- BoundingBox.getSurfaceArea. -/
def BoundingBox.surfaceArea (b : BoundingBox) : ℚ :=
  let xl := b.bmax.1 - b.bmin.1
  let yl := b.bmax.2.1 - b.bmin.2.1
  let zl := b.bmax.2.2 - b.bmin.2.2
  (xl * yl + xl * zl + yl * zl) * 2

/-- BoundingBox.centroid: (min + max) * 0.5. -/
def BoundingBox.centroid (b : BoundingBox) : Vec3 := vscale (vadd b.bmin b.bmax) (1/2)

/-- Triangle lookup in the global triangle array; indices produced by the
builder are always in range, the default only totalises the function. -/
def triAt (tris : List Triangle) (i : ℕ) : Triangle := tris.getD i default

/-- BoundingBox.addNode: the union of the boxes of the triangles named by an
index list.  The source starts from an infinite empty box; every list this
development evaluates is nonempty, so the union is taken from the first
element and the empty case returns a placeholder never consumed. -/
def boxOfIdx (tris : List Triangle) : List ℕ → BoundingBox
  | [] => ⟨(0, 0, 0), (0, 0, 0)⟩
  | i :: rest => rest.foldl (fun b j => boxUnion b (triBox (triAt tris j))) (triBox (triAt tris i))

/-! ### JavaScript numbers with special values

The SAH cost loop in Node.setSplit compares costs against an initial best of
Infinity, and on degenerate geometry computes 0/0 = NaN.  Those comparisons
decide control flow, so the costs are computed in a type carrying the special
values with IEEE comparison semantics; all other arithmetic in the program is
exact on the inputs we consider and is modelled directly in ℚ. -/

inductive JsNum where
  | num (q : ℚ)
  | posInf
  | negInf
  | nan
deriving DecidableEq

/-- JavaScript division of two finite numbers: x/0 is NaN for x = 0 and a
signed infinity otherwise (surface areas are nonnegative, so the divisor is
the nonnegative zero). -/
def qdivJs (a b : ℚ) : JsNum :=
  if b = 0 then (if a = 0 then .nan else if 0 < a then .posInf else .negInf)
  else .num (a / b)

/-- Multiplication of a JavaScript number by a nonnegative integer literal;
Infinity * 0 is NaN. -/
def JsNum.mulNat : JsNum → ℕ → JsNum
  | .num q, k => .num (q * k)
  | .posInf, k => if k = 0 then .nan else .posInf
  | .negInf, k => if k = 0 then .nan else .negInf
  | .nan, _ => .nan

def JsNum.add : JsNum → JsNum → JsNum
  | .nan, _ => .nan
  | _, .nan => .nan
  | .num a, .num b => .num (a + b)
  | .num _, .posInf => .posInf
  | .num _, .negInf => .negInf
  | .posInf, .num _ => .posInf
  | .negInf, .num _ => .negInf
  | .posInf, .posInf => .posInf
  | .negInf, .negInf => .negInf
  | .posInf, .negInf => .nan
  | .negInf, .posInf => .nan

/-- The JavaScript less-than comparison: false whenever either side is NaN. -/
def JsNum.lt : JsNum → JsNum → Bool
  | .nan, _ => false
  | _, .nan => false
  | .num a, .num b => decide (a < b)
  | .num _, .posInf => true
  | .num _, .negInf => false
  | .posInf, _ => false
  | .negInf, .num _ => true
  | .negInf, .posInf => true
  | .negInf, .negInf => false

/-! ### Render loop state (src/main.js, functions clear and tick) -/

/-- The mutable state the tick handler reads and writes. -/
structure LoopState where
  pingpong : ℕ
  dirty : Bool
  moving : Bool
  active : Bool
deriving DecidableEq

/-- The framebuffer indices bound and cleared by clear(): screen[0] and
screen[pingpong + 1 % 2].  In JavaScript % binds tighter than +, so the
second index is pingpong + 1 (the same parse Lean uses below); the valid
accumulator targets are only 0 and 1. -/
def clearBinds (s : LoopState) : List ℕ :=
  if s.moving then [] else [0, s.pingpong + 1 % 2]

/-- The state updates of clear(): pingpong = 0, dirty = false. -/
def clearState (s : LoopState) : LoopState :=
  { s with pingpong := 0, dirty := false }

/-- The observable effects of one tick. -/
structure TickResult where
  st : LoopState
  resScale : ℚ
  camera : Bool
  tracer : Option ℕ
  present : ℕ
  cleared : Bool
  upload : Bool
deriving DecidableEq

/-- One pass of tick() with sample budget max (0 encodes a falsy parseInt)
and frame index frame (negative = interactive). -/
def tick (max : ℕ) (frame : ℤ) (s : LoopState) : TickResult :=
  let resScale : ℚ := if s.moving then 1/4 else 1
  let drew := max ≠ 0 ∧ s.pingpong ≤ max ∧ s.active
  let s1 := if drew then { s with pingpong := s.pingpong + 1 } else s
  let tracerArg := if drew then some s.pingpong else none
  let s2 := if s1.dirty then clearState s1 else s1
  { st := s2
    resScale := resScale
    camera := decide drew
    tracer := tracerArg
    present := s1.pingpong
    cleared := s1.dirty
    upload := decide (max ≤ s2.pingpong ∧ 0 ≤ frame) }

/-- The loop state after n ticks from a given start. -/
def runLoop (max : ℕ) (frame : ℤ) (s : LoopState) : ℕ → LoopState
  | 0 => s
  | n + 1 => (tick max frame (runLoop max frame s n)).st

/-- The clean start the claims reason from: fresh counter, no pending
invalidation, pointer inside the viewport. -/
def cleanStart : LoopState := ⟨0, false, false, true⟩

/-! ### Material resolution (src/main.js, getMaterial, lines 266 and 267) -/

/-- JavaScript truthiness of a possibly absent numeric field. -/
def truthy : Option ℚ → Bool
  | none => false
  | some q => decide (q ≠ 0)

/-- The JavaScript || operator on possibly absent numeric fields. -/
def jsOr (a b : Option ℚ) : Option ℚ := if truthy a then a else b

/-- material.ior = group.material["ior"] || transforms.ior || 1.4. -/
def resolveIor (matIor trIor : Option ℚ) : ℚ :=
  (jsOr (jsOr matIor trIor) (some (14/10))).getD 0

/-- material.dielectric = group.material["dielectric"] || transforms.dielectric || -1. -/
def resolveDielectric (matD trD : Option ℚ) : ℚ :=
  (jsOr (jsOr matD trD) (some (-1))).getD 0

/-! ### Autofocus ray casting (src/main.js, shootAutoFocusRay) -/

def maxT : ℚ := 1000000

def rtEps : ℚ := 1 / 1000000000000

/-- The determinant of the Moller-Trumbore system: dot(e1, cross(dir, e2)). -/
def rtDet (dir : Vec3) (tri : Triangle) : ℚ :=
  dot (vsub tri.v1 tri.v0) (cross dir (vsub tri.v2 tri.v0))

/-- The first barycentric coordinate times one: dot(tvec, p) / det. -/
def rtU (eye dir : Vec3) (tri : Triangle) : ℚ :=
  dot (vsub eye tri.v0) (cross dir (vsub tri.v2 tri.v0)) * (1 / rtDet dir tri)

/-- The second barycentric coordinate: dot(dir, q) / det. -/
def rtV (eye dir : Vec3) (tri : Triangle) : ℚ :=
  dot dir (cross (vsub eye tri.v0) (vsub tri.v1 tri.v0)) * (1 / rtDet dir tri)

/-- The parametric distance: dot(e2, q) / det. -/
def rtT (eye dir : Vec3) (tri : Triangle) : ℚ :=
  dot (vsub tri.v2 tri.v0) (cross (vsub eye tri.v0) (vsub tri.v1 tri.v0)) * (1 / rtDet dir tri)

/-- rayTriangleIntersect: Moller-Trumbore returning maxT on rejection. -/
def rayTriangleIntersect (eye dir : Vec3) (tri : Triangle) : ℚ :=
  let e1 := vsub tri.v1 tri.v0
  let e2 := vsub tri.v2 tri.v0
  let p := cross dir e2
  let det := dot e1 p
  if -rtEps < det ∧ det < rtEps then maxT
  else
    let invDet := 1 / det
    let tvec := vsub eye tri.v0
    let u := dot tvec p * invDet
    if u < 0 ∨ 1 < u then maxT
    else
      let q := cross tvec e1
      let v := dot dir q * invDet
      if v < 0 ∨ 1 < u + v then maxT
      else
        let tpar := dot e2 q * invDet
        if rtEps < tpar then tpar else maxT

/-! ### BVH builder (src/bvh.js, classes BVH and Node) -/

/-- The three per-axis index lists the builder threads through the recursion. -/
structure IdxLists where
  x : List ℕ
  y : List ℕ
  z : List ℕ
deriving DecidableEq

def IdxLists.get (ind : IdxLists) (a : ℕ) : List ℕ :=
  if a = 0 then ind.x else if a = 1 then ind.y else ind.z

/-- BVH._sortIndices: ascending stable sort by box centroid on one axis (a
stable sort is what Array.prototype.sort guarantees; insertion sort keeps
the original order of ties just as the engine does). -/
def sortIndices (tris : List Triangle) (a : ℕ) (l : List ℕ) : List ℕ :=
  l.insertionSort (fun i j =>
    axisComp (triBox (triAt tris i)).centroid a ≤ axisComp (triBox (triAt tris j)).centroid a)

/-- The BVH constructor: the identity range sorted per axis. -/
def initIndices (tris : List Triangle) : IdxLists :=
  let base := List.range tris.length
  ⟨sortIndices tris 0 base, sortIndices tris 1 base, sortIndices tris 2 base⟩

/-- surfacesFront of Node.setSplit: entry i is the surface area of the union
of the boxes of the first i + 1 triangles in axis order. -/
def sweepFrontSA (tris : List Triangle) (idx : List ℕ) : List ℚ :=
  (List.range idx.length).map (fun j => (boxOfIdx tris (idx.take (j + 1))).surfaceArea)

/-- surfacesBack of Node.setSplit: entry i is the surface area of the union
of the boxes of the last i + 1 triangles in axis order. -/
def sweepBackSA (tris : List Triangle) (idx : List ℕ) : List ℚ :=
  sweepFrontSA tris idx.reverse

/-- The candidate (axis, loop index) pairs of the two nested setSplit loops,
in iteration order. -/
def axisCands (ind : IdxLists) : List (ℕ × ℕ) :=
  [0, 1, 2].flatMap (fun a => (List.range (ind.get a).length).map (fun i => (a, i)))

/-- The cost computed by setSplit at axis a and loop index i, in JavaScript
arithmetic: 1 + (sAf/parentSA)*1*(i+1) + (sAb/parentSA)*1*(n-1-i) with
sAb = surfacesBack[n-1-i]. -/
def costOf (tris : List Triangle) (ind : IdxLists) (parentSA : ℚ) (a i : ℕ) : JsNum :=
  let idxCache := ind.get a
  let n := idxCache.length
  let sAf := (sweepFrontSA tris idxCache).getD i 0
  let sAb := (sweepBackSA tris idxCache).getD (n - 1 - i) 0
  JsNum.add (JsNum.add (.num 1) (JsNum.mulNat (JsNum.mulNat (qdivJs sAf parentSA) 1) (i + 1)))
    (JsNum.mulNat (JsNum.mulNat (qdivJs sAb parentSA) 1) (n - 1 - i))

/-- One iteration of the setSplit cost loop: update bestCost / splitAxis /
splitIndex on a strict improvement. -/
def splitStep (tris : List Triangle) (ind : IdxLists) (parentSA : ℚ)
    (st : JsNum × Option (ℕ × ℕ)) (c : ℕ × ℕ) : JsNum × Option (ℕ × ℕ) :=
  let cost := costOf tris ind parentSA c.1 c.2
  if JsNum.lt cost st.1 then (cost, some (c.1, c.2 + 1)) else st

/-- The accumulation of bestCost / splitAxis / splitIndex over the candidate
loops; bestCost starts at Infinity and nothing is selected until a strict
improvement, exactly as in the source. -/
def splitFold (tris : List Triangle) (ind : IdxLists) (parentSA : ℚ) : JsNum × Option (ℕ × ℕ) :=
  (axisCands ind).foldl (splitStep tris ind parentSA) (.posInf, none)

/-- Node.setSplit: none models the fields staying undefined when no cost
ever compares below Infinity (all costs NaN). -/
def setSplit (tris : List Triangle) (ind : IdxLists) : Option (ℕ × ℕ) :=
  (splitFold tris ind ((boxOfIdx tris ind.x).surfaceArea)).2

/-- BVH._constructCachedIndexList: the split axis list is cut at splitIndex,
the other two lists are partitioned by membership in the left cut, scanning
in order. -/
def constructCachedIndexList (ind : IdxLists) (splitAxis splitIndex : ℕ) :
    IdxLists × IdxLists :=
  let base := ind.get splitAxis
  let leftSplit := base.take splitIndex
  let pickL := fun a =>
    if a = splitAxis then leftSplit
    else (ind.get a).filter (fun j => decide (j ∈ leftSplit))
  let pickR := fun a =>
    if a = splitAxis then base.drop splitIndex
    else (ind.get a).filter (fun j => decide (j ∉ leftSplit))
  (⟨pickL 0, pickL 1, pickL 2⟩, ⟨pickR 0, pickR 1, pickR 2⟩)

def leafSize : ℕ := 4

inductive Tree where
  | leaf (idx : List ℕ) (box : BoundingBox)
  | node (box : BoundingBox) (splitAxis splitIndex : ℕ) (left right : Tree)
deriving DecidableEq

def Tree.box : Tree → BoundingBox
  | .leaf _ b => b
  | .node b _ _ _ _ => b

/-- The triangle indices owned by the leaves, in leaf-visit order. -/
def Tree.leavesIdx : Tree → List ℕ
  | .leaf idx _ => idx
  | .node _ _ _ l r => l.leavesIdx ++ r.leavesIdx

def Tree.size : Tree → ℕ
  | .leaf _ _ => 1
  | .node _ _ _ l r => 1 + l.size + r.size

def preorder : Tree → List Tree
  | .leaf idx b => [.leaf idx b]
  | .node b a k l r => .node b a k l r :: (preorder l ++ preorder r)

inductive BuildErr where
  | typeErr
  | noFuel
deriving DecidableEq

instance : DecidableEq (Except BuildErr Tree) := fun a b =>
  match a, b with
  | .ok x, .ok y => decidable_of_iff (x = y) (by simp)
  | .error e, .error f => decidable_of_iff (e = f) (by simp)
  | .ok _, .error _ => isFalse (by simp)
  | .error _, .ok _ => isFalse (by simp)

/-- BVH.buildTree.  The fuel argument only bounds the recursion depth of the
embedding; the source recurses without a guard and a recursion that never
bottoms out (a stack overflow in JavaScript) is the noFuel error for every
fuel.  typeErr is the TypeError thrown by indices[undefined].slice when
setSplit selected nothing. -/
def buildTree (tris : List Triangle) : ℕ → IdxLists → Except BuildErr Tree
  | 0, _ => .error .noFuel
  | fuel + 1, ind =>
    let split? := setSplit tris ind
    let ax := (split?.map Prod.fst).getD 0
    if (ind.get ax).length ≤ leafSize then
      .ok (.leaf ind.x (boxOfIdx tris ind.x))
    else
      match split? with
      | none => .error .typeErr
      | some (axis, k) =>
        let parts := constructCachedIndexList ind axis k
        match buildTree tris fuel parts.1, buildTree tris fuel parts.2 with
        | .ok l, .ok r => .ok (.node (boxOfIdx tris ind.x) axis k l r)
        | .error e, _ => .error e
        | .ok _, .error e => .error e

/-- The leaf discipline of claim C5 as a decidable predicate: a node is a
leaf exactly when it has at most leafSize triangles and every leaf holds
between 1 and leafSize. -/
def leafRuleB : Tree → Bool
  | .leaf idx _ => decide (1 ≤ idx.length ∧ idx.length ≤ leafSize)
  | .node _ _ _ l r =>
    decide (leafSize < l.leavesIdx.length + r.leavesIdx.length) && (leafRuleB l && leafRuleB r)

def disjointB (l r : List ℕ) : Bool := l.all (fun a => decide (a ∉ r))

/-- Sibling leaf index sets are disjoint at every internal node. -/
def partitionOKB : Tree → Bool
  | .leaf _ _ => true
  | .node _ _ _ l r => disjointB l.leavesIdx r.leavesIdx && (partitionOKB l && partitionOKB r)

/-! ### BVH serialization (src/bvh.js serializeTree, src/main.js initBVH) -/

structure SerEntry where
  node : Tree
  left : Option ℕ
  right : Option ℕ
deriving DecidableEq

/-- traverseTree of serializeTree: assigns each node the next counter value
in visit order; internal entries record the ordinals returned by the child
traversals, leaf entries leave them unset (undefined in the source). -/
def serializeAux : Tree → ℕ → List SerEntry × ℕ
  | .leaf idx b, i => ([⟨.leaf idx b, none, none⟩], i + 1)
  | .node b a k l r, i =>
    let resL := serializeAux l (i + 1)
    let resR := serializeAux r resL.2
    (⟨.node b a k l r, some (i + 1), some resL.2⟩ :: (resL.1 ++ resR.1), resR.2)

def serializeTree (t : Tree) : List SerEntry := (serializeAux t 0).1

/-- A cell of bvhBuffer before the Int32Array reinterpretation: a number or
the undefined left/right field of a leaf entry. -/
inductive JsVal where
  | num (q : ℚ)
  | undef
deriving DecidableEq

def cellOf : Option ℕ → JsVal
  | none => .undef
  | some n => .num n

def boxCells (b : BoundingBox) : List JsVal :=
  [.num b.bmin.1, .num b.bmin.2.1, .num b.bmin.2.2, .num b.bmax.1, .num b.bmax.2.1, .num b.bmax.2.2]

def vertsFlat (t : Triangle) : List ℚ :=
  [t.v0.1, t.v0.2.1, t.v0.2.2, t.v1.1, t.v1.2.1, t.v1.2.2, t.v2.1, t.v2.2.1, t.v2.2.2]

/-- The nine floats a leaf appends to trianglesBuffer per owned triangle. -/
def leafTriFloats (tris : List Triangle) : Tree → List ℚ
  | .leaf idx _ => idx.flatMap (fun i => vertsFlat (triAt tris i))
  | .node _ _ _ _ _ => []

/-- One 9-cell bvhBuffer record: [left, right, triIndex, min, max] where
triIndex is trianglesBuffer.length / 3 / 3 for a leaf and -1 otherwise. -/
def mkRecord (e : SerEntry) (tb : ℕ) : List JsVal :=
  [cellOf e.left, cellOf e.right,
    match e.node with | .leaf _ _ => JsVal.num tb | .node _ _ _ _ _ => JsVal.num (-1)] ++
  boxCells e.node.box

/-- The packing loop of initBVH over the serialized array, threading the
growing trianglesBuffer. -/
def packRecordsAux (tris : List Triangle) : List SerEntry → List ℚ → List (List JsVal)
  | [], _ => []
  | e :: rest, triBuf =>
    mkRecord e (triBuf.length / 3 / 3) ::
      packRecordsAux tris rest (triBuf ++ leafTriFloats tris e.node)

def packRecords (tris : List Triangle) (t : Tree) : List (List JsVal) :=
  packRecordsAux tris (serializeTree t) []

/-- JavaScript ToInt32 truncation toward zero. -/
def jsTrunc (q : ℚ) : ℤ := if q < 0 then ⌈q⌉ else ⌊q⌋

def wrap32 (n : ℤ) : ℤ :=
  let m := n % 4294967296
  if m < 2147483648 then m else m - 4294967296

/-- The integer a bvhBuffer cell becomes inside the Int32Array of
maskBVHBuffer; ToNumber(undefined) is NaN and ToInt32(NaN) is 0. -/
def maskInt : JsVal → ℤ
  | .undef => 0
  | .num q => wrap32 (jsTrunc q)

def leafTriCountE (e : SerEntry) : ℕ :=
  match e.node with
  | .leaf idx _ => idx.length
  | .node _ _ _ _ _ => 0

/-- Cumulative triangle count of a list of serialized entries. -/
def cumTri (es : List SerEntry) : ℕ := (es.map leafTriCountE).sum

/-! ### Autofocus traversal (src/main.js, shootAutoFocusRay internals) -/

def vinv (v : Vec3) : Vec3 := (1 / v.1, 1 / v.2.1, 1 / v.2.2)

/-- rayBoxIntersect: the slab method, returning the entry distance on a hit
and maxT on a miss.  Faithful for directions with no zero component (the
source would produce infinities there). -/
def rayBoxIntersect (eye dir : Vec3) (b : BoundingBox) : ℚ :=
  let invDir := vinv dir
  let tx1 := (b.bmin.1 - eye.1) * invDir.1
  let tx2 := (b.bmax.1 - eye.1) * invDir.1
  let ty1 := (b.bmin.2.1 - eye.2.1) * invDir.2.1
  let ty2 := (b.bmax.2.1 - eye.2.1) * invDir.2.1
  let tz1 := (b.bmin.2.2 - eye.2.2) * invDir.2.2
  let tz2 := (b.bmax.2.2 - eye.2.2) * invDir.2.2
  let tmin := max (max (min tx1 tx2) (min ty1 ty2)) (min tz1 tz2)
  let tmax := min (min (max tx1 tx2) (max ty1 ty2)) (max tz1 tz2)
  if tmin ≤ tmax ∧ 0 ≤ tmax then tmin else maxT

/-- processLeaf: the closest triangle intersection within one leaf. -/
def processLeaf (tris : List Triangle) (eye dir : Vec3) (idx : List ℕ) : ℚ :=
  idx.foldl
    (fun res i =>
      let tmp := rayTriangleIntersect eye dir (triAt tris i)
      if tmp < res then tmp else res)
    maxT

/-- findTriangles: recursive front-to-back traversal.  closestNode orders
the two children by slab entry distance (null, encoded as the distance being
maxT, when the box is missed) and a child is visited only when its entry
distance is below the current closest. -/
def findTriangles (tris : List Triangle) (eye dir : Vec3) : Tree → ℚ → ℚ
  | .leaf idx _, _ => processLeaf tris eye dir idx
  | .node _ _ _ l r, closest =>
    let tL := rayBoxIntersect eye dir l.box
    let tR := rayBoxIntersect eye dir r.box
    if tL < tR then
      let c1 := if tL < maxT ∧ tL < closest
        then min (findTriangles tris eye dir l closest) closest else closest
      if tR < maxT ∧ tR < c1
        then min (findTriangles tris eye dir r c1) c1 else c1
    else
      let c1 := if tR < maxT ∧ tR < closest
        then min (findTriangles tris eye dir r closest) closest else closest
      if tL < maxT ∧ tL < c1
        then min (findTriangles tris eye dir l c1) c1 else c1

/-- The fields of the program state shootAutoFocusRay writes: the two
lensFeatures cells and the focal-depth display value. -/
structure FocusState where
  lens0 : ℚ
  lens1 : ℚ
  focalDepth : ℚ
deriving DecidableEq

/-- shootAutoFocusRay: probe the BVH and update lensFeatures[0] and the
focal-depth element; lensFeatures[1] (the aperture) is left as it was. -/
def shootAutoFocusRay (tris : List Triangle) (eye dir : Vec3) (root : Tree)
    (aperture : ℚ) : FocusState :=
  let dist := findTriangles tris eye dir root maxT
  ⟨1 - 1 / dist, aperture, dist⟩

/-- The cost of setSplit at axis a and loop index i written as one exact
rational, meaningful when the parent surface area is nonzero. -/
def costQ (tris : List Triangle) (ind : IdxLists) (parentSA : ℚ) (a i : ℕ) : ℚ :=
  let idxCache := ind.get a
  let n := idxCache.length
  1 + ((sweepFrontSA tris idxCache).getD i 0 / parentSA) * 1 * ((i + 1 : ℕ) : ℚ)
    + ((sweepBackSA tris idxCache).getD (n - 1 - i) 0 / parentSA) * 1 * ((n - 1 - i : ℕ) : ℚ)

/-! ### The split selection the claim C3 describes

Rendered from the words of the claim, not from the source: candidates are
k in 1..N-1 only, and the back box excludes the boundary triangle. -/

def specCostC3 (tris : List Triangle) (ind : IdxLists) (parentSA : ℚ) (a k : ℕ) : ℚ :=
  let idxCache := ind.get a
  let n := idxCache.length
  1 + ((boxOfIdx tris (idxCache.take k)).surfaceArea / parentSA) * k
    + ((boxOfIdx tris (idxCache.reverse.take (n - k))).surfaceArea / parentSA) * (n - k : ℕ)

def specCandsC3 (ind : IdxLists) : List (ℕ × ℕ) :=
  [0, 1, 2].flatMap (fun a => (List.range ((ind.get a).length - 1)).map (fun j => (a, j + 1)))

/-- The first (axis, k) attaining the minimum claimed cost in iteration
order, via a strict-improvement scan. -/
def specSetSplitC3 (tris : List Triangle) (ind : IdxLists) : Option (ℕ × ℕ) :=
  let parentSA := (boxOfIdx tris ind.x).surfaceArea
  ((specCandsC3 ind).foldl
    (fun st c =>
      match st with
      | none => some (c, specCostC3 tris ind parentSA c.1 c.2)
      | some b =>
        if specCostC3 tris ind parentSA c.1 c.2 < b.2
        then some (c, specCostC3 tris ind parentSA c.1 c.2) else some b)
    none).map Prod.fst

/-! ### The split selection actually implemented, in exact arithmetic

Candidate / cost pairs of the source loops with the costs written as plain
rationals; meaningful whenever the parent surface area is nonzero. -/

/-- The cost the source actually computes at axis a and loop index i (split
count k = i + 1), written with explicit boxes: the front box covers the
first i + 1 triangles with multiplier i + 1, the back box covers the last
n - i triangles (one more than the claim says) with multiplier n - 1 - i. -/
def amendedCost (tris : List Triangle) (ind : IdxLists) (a i : ℕ) : ℚ :=
  let idxCache := ind.get a
  let n := idxCache.length
  let parentSA := (boxOfIdx tris ind.x).surfaceArea
  1 + ((boxOfIdx tris (idxCache.take (i + 1))).surfaceArea / parentSA) * (i + 1 : ℕ)
    + ((boxOfIdx tris (idxCache.reverse.take (n - i))).surfaceArea / parentSA) * (n - 1 - i : ℕ)

def amendedCands (tris : List Triangle) (ind : IdxLists) : List ((ℕ × ℕ) × ℚ) :=
  (axisCands ind).map (fun c => ((c.1, c.2 + 1), amendedCost tris ind c.1 c.2))

/-- One step of the strict-minimum scan over candidate / cost pairs. -/
def sahStep (st : Option ((ℕ × ℕ) × ℚ)) (c : (ℕ × ℕ) × ℚ) : Option ((ℕ × ℕ) × ℚ) :=
  match st with
  | none => some c
  | some b => if c.2 < b.2 then some c else some b

/-- First strict minimum of a candidate / cost list. -/
def sahFold (cands : List ((ℕ × ℕ) × ℚ)) : Option ((ℕ × ℕ) × ℚ) :=
  cands.foldl sahStep none

/-! ### Auxiliary predicates and accessors for the statements -/

/-- Componentwise order on vectors. -/
def vle (a b : Vec3) : Prop := a.1 ≤ b.1 ∧ a.2.1 ≤ b.2.1 ∧ a.2.2 ≤ b.2.2

/-- Box a lies inside box b. -/
def BoxLE (a b : BoundingBox) : Prop := vle b.bmin a.bmin ∧ vle a.bmax b.bmax

/-- A box with ordered bounds. -/
def BoxWF (b : BoundingBox) : Prop := vle b.bmin b.bmax

/-- The well-formedness the BVH constructor establishes for the three index
lists: permutations of one another, without duplicates. -/
def IdxWF (ind : IdxLists) : Prop :=
  ind.y.Perm ind.x ∧ ind.z.Perm ind.x ∧ ind.x.Nodup

def dummyTree : Tree := .leaf [] ⟨(0, 0, 0), (0, 0, 0)⟩

def dummyEntry : SerEntry := ⟨dummyTree, none, none⟩

/-- The serialized entry at a given ordinal. -/
def entryAt (t : Tree) (p : ℕ) : SerEntry := (serializeTree t).getD p dummyEntry

/-- The packed 9-cell record at a given ordinal. -/
def recordAt (tris : List Triangle) (t : Tree) (p : ℕ) : List JsVal :=
  (packRecords tris t).getD p []

/-! ### Concrete scenes used by witnesses and counterexamples -/

def triA : Triangle := ⟨(0, 0, 0), (1, 0, 0), (0, 1, 0)⟩

def triB : Triangle := ⟨(-3, 1, 0), (-1, 3, 0), (-1, 1, 2)⟩

def tris1 : List Triangle := [triA]

def tris2 : List Triangle := [triA, triB]

def triDegen : Triangle := ⟨(0, 0, 0), (0, 0, 0), (0, 0, 0)⟩

/-- Five coincident degenerate triangles: a nonempty scene whose bounding
box has zero surface area. -/
def tris5 : List Triangle := List.replicate 5 triDegen

def tree1 : Tree := .leaf [0] (triBox triA)

def wLeaf0 : Tree := .leaf [0] (triBox triA)

def wLeaf1 : Tree := .leaf [1] (triBox triB)

def wTree : Tree := .node (boxUnion (triBox triA) (triBox triB)) 0 1 wLeaf0 wLeaf1

/-! ## Theorems -/

/-! ### Generic fold helpers -/

theorem foldl_inv {α β : Type} {step : β → α → β} {P : β → Prop} :
    ∀ (l : List α) (st : β), P st → (∀ st' c, c ∈ l → P st' → P (step st' c)) →
      P (l.foldl step st) := by
  intro l
  induction l with
  | nil => intro st h _; exact h
  | cons c l ih =>
    intro st h hstep
    exact ih (step st c) (hstep st c (List.mem_cons_self c l) h)
      (fun st' d hd => hstep st' d (List.mem_cons_of_mem c hd))

theorem foldl_rel {α β γ : Type} {R : β → γ → Prop} {f : β → α → β} {g : γ → α → γ} :
    ∀ (l : List α) (b : β) (c : γ), R b c →
      (∀ b' c' x, x ∈ l → R b' c' → R (f b' x) (g c' x)) → R (l.foldl f b) (l.foldl g c) := by
  intro l
  induction l with
  | nil => intro b c h _; exact h
  | cons x l ih =>
    intro b c h hstep
    exact ih (f b x) (g c x) (hstep b c x (List.mem_cons_self x l) h)
      (fun b' c' y hy => hstep b' c' y (List.mem_cons_of_mem x hy))

/-! ### C1: the clear handler -/

/-- C1: the claim states that whenever a set dirty flag is handled with
moving false, both accumulator targets (indices 0 and 1) are cleared for
every value of pingpong, and pingpong and dirty are reset.  The resets hold,
but because % binds tighter than + in JavaScript the second clear binds
framebuffers.screen[pingpong + 1]; already at pingpong = 1 the bound indices
are 0 and 2, so accumulator target 1 is not cleared. -/
theorem c1_clear_second_target_bug :
    clearBinds ⟨1, false, false, true⟩ = [0, 2] ∧
    (1 : ℕ) ∉ clearBinds ⟨1, false, false, true⟩ ∧
    clearBinds ⟨0, false, false, true⟩ = [0, 1] ∧
    (clearState ⟨1, true, false, true⟩).pingpong = 0 ∧
    (clearState ⟨1, true, false, true⟩).dirty = false := by decide

/-! ### C4: the sample budget run -/

theorem runLoop_state (max : ℕ) (frame : ℤ) :
    ∀ k, k ≤ max → runLoop max frame cleanStart k = ⟨k, false, false, true⟩ := by
  intro k
  induction k with
  | zero => intro _; rfl
  | succ k ih =>
    intro hk
    have hk' : k ≤ max := Nat.le_of_succ_le hk
    have h0 : max ≠ 0 := by omega
    rw [runLoop, ih hk']
    simp [tick, clearState, h0, hk']

/-- C4 counterexample: with max = 1 and frame = 0, the upload fires at the
end of the very first tick with pingpong = 1 = max; pingpong never reaches
max + 1 = 2 before the upload. -/
theorem c4_counterexample :
    (tick 1 0 cleanStart).upload = true ∧
    (tick 1 0 cleanStart).st.pingpong = 1 ∧
    (1 : ℕ) ≠ 1 + 1 := by decide

/-- C4 (amended): with the budget max set, frame at least 0, active and no
invalidation, every tick with pingpong below max runs one camera pass and
one tracer pass with argument pingpong and then increments; the upload fires
at the end of the tick that raises pingpong to exactly max (not max + 1). -/
theorem c4_amended (max : ℕ) (frame : ℤ) (hmax : 1 ≤ max) (hframe : 0 ≤ frame) :
    (∀ k, k < max →
      runLoop max frame cleanStart k = ⟨k, false, false, true⟩ ∧
      (tick max frame (runLoop max frame cleanStart k)).camera = true ∧
      (tick max frame (runLoop max frame cleanStart k)).tracer = some k ∧
      ((tick max frame (runLoop max frame cleanStart k)).upload = true ↔ k + 1 = max)) ∧
    (runLoop max frame cleanStart max).pingpong = max ∧
    (tick max frame (runLoop max frame cleanStart (max - 1))).upload = true ∧
    (tick max frame (runLoop max frame cleanStart (max - 1))).st.pingpong = max := by
  have hstates := runLoop_state max frame
  have h0 : max ≠ 0 := by omega
  refine ⟨?_, ?_, ?_, ?_⟩
  · intro k hk
    have hk' : k ≤ max := Nat.le_of_lt hk
    rw [hstates k hk']
    refine ⟨rfl, ?_, ?_, ?_⟩
    · simp [tick, h0, hk']
    · simp [tick, h0, hk']
    · simp [tick, clearState, h0, hk', hframe]
      omega
  · rw [hstates max (Nat.le_refl max)]
  · rw [hstates (max - 1) (by omega)]
    have hm : max - 1 ≤ max := by omega
    simp [tick, clearState, h0, hm, hframe]
    omega
  · rw [hstates (max - 1) (by omega)]
    have hm : max - 1 ≤ max := by omega
    simp [tick, clearState, h0, hm]
    omega

/-- C4 witness at max = 2, frame = 0. -/
theorem c4_witness :
    (tick 2 0 (runLoop 2 0 cleanStart 1)).upload = true ∧
    (tick 2 0 (runLoop 2 0 cleanStart 1)).st.pingpong = 2 :=
  ⟨(c4_amended 2 0 (by decide) (by decide)).2.2.1, (c4_amended 2 0 (by decide) (by decide)).2.2.2⟩

/-! ### C10: truthiness fallback of getMaterial -/

/-- C10 counterexample: a material ior of 0 together with a transforms ior
of 9/5 resolves to 9/5, not to the default 1.4; likewise a material
dielectric of 0 with a transforms dielectric of 5 resolves to 5, not -1. -/
theorem c10_counterexample :
    resolveIor (some 0) (some (9/5)) = 9/5 ∧ (9/5 : ℚ) ≠ 14/10 ∧
    resolveDielectric (some 0) (some 5) = 5 ∧ (5 : ℚ) ≠ -1 := by decide

/-- C10 (amended): the fallback chains select by truthiness, so a specified
zero is skipped like an absent field: the resolved ior is the material ior
when that is present and nonzero, else the transforms ior when present and
nonzero, else 1.4; dielectric likewise with default -1.  In particular
neither resolved value can ever be 0. -/
theorem truthy_getD_ne {a : Option ℚ} (h : truthy a = true) : a.getD 0 ≠ 0 := by
  rcases a with _ | q
  · simp [truthy] at h
  · simpa [truthy] using h

theorem jsOr_chain_getD (m t : Option ℚ) (d : ℚ) :
    (jsOr (jsOr m t) (some d)).getD 0 =
      (if truthy m then m.getD 0 else if truthy t then t.getD 0 else d) := by
  rcases m with _ | q
  · rcases t with _ | r
    · simp [jsOr, truthy]
    · by_cases hr : r = 0 <;> simp [jsOr, truthy, hr]
  · by_cases hq : q = 0
    · rcases t with _ | r
      · simp [jsOr, truthy, hq]
      · by_cases hr : r = 0 <;> simp [jsOr, truthy, hq, hr]
    · simp [jsOr, truthy, hq]

theorem c10_amended (m t md td : Option ℚ) :
    resolveIor m t = (if truthy m then m.getD 0 else if truthy t then t.getD 0 else 14/10) ∧
    resolveIor m t ≠ 0 ∧
    resolveDielectric md td =
      (if truthy md then md.getD 0 else if truthy td then td.getD 0 else -1) ∧
    resolveDielectric md td ≠ 0 := by
  have hior : resolveIor m t =
      (if truthy m then m.getD 0 else if truthy t then t.getD 0 else 14/10) :=
    jsOr_chain_getD m t (14/10)
  have hdie : resolveDielectric md td =
      (if truthy md then md.getD 0 else if truthy td then td.getD 0 else -1) :=
    jsOr_chain_getD md td (-1)
  refine ⟨hior, ?_, hdie, ?_⟩
  · rw [hior]
    split_ifs with h1 h2
    · exact truthy_getD_ne h1
    · exact truthy_getD_ne h2
    · norm_num
  · rw [hdie]
    split_ifs with h1 h2
    · exact truthy_getD_ne h1
    · exact truthy_getD_ne h2
    · norm_num

/-! ### C8: Moller-Trumbore -/

theorem mt_point_identity (eye dir : Vec3) (tri : Triangle) (hdet : rtDet dir tri ≠ 0) :
    vadd eye (vscale dir (rtT eye dir tri)) =
      vadd tri.v0 (vadd (vscale (vsub tri.v1 tri.v0) (rtU eye dir tri))
        (vscale (vsub tri.v2 tri.v0) (rtV eye dir tri))) := by
  obtain ⟨ex, ey, ez⟩ := eye
  obtain ⟨dx, dy, dz⟩ := dir
  obtain ⟨⟨ax, ay, az⟩, ⟨bx, bb, bz⟩, ⟨cx, cy, cz⟩⟩ := tri
  simp only [rtT, rtU, rtV, rtDet, vadd, vsub, vscale, dot, cross] at hdet ⊢
  simp only [Prod.mk.injEq]
  refine ⟨?_, ?_, ?_⟩ <;> field_simp <;> ring

theorem rayTriangleIntersect_cases (eye dir : Vec3) (tri : Triangle) :
    rayTriangleIntersect eye dir tri =
      (if -rtEps < rtDet dir tri ∧ rtDet dir tri < rtEps then maxT
       else if rtU eye dir tri < 0 ∨ 1 < rtU eye dir tri then maxT
       else if rtV eye dir tri < 0 ∨ 1 < rtU eye dir tri + rtV eye dir tri then maxT
       else if rtEps < rtT eye dir tri then rtT eye dir tri else maxT) := rfl

/-- C8 (amended): the intersection returns maxT exactly on a parallel ray
(absolute determinant below epsilon), an out-of-range barycentric
coordinate, or a parametric distance at most epsilon; back faces are not
rejected.  When nothing rejects, the returned value is the parametric
distance of a genuine intersection point of the ray with the triangle. -/
theorem c8_amended (eye dir : Vec3) (tri : Triangle) :
    (((-rtEps < rtDet dir tri ∧ rtDet dir tri < rtEps) ∨
        rtU eye dir tri < 0 ∨ 1 < rtU eye dir tri ∨
        rtV eye dir tri < 0 ∨ 1 < rtU eye dir tri + rtV eye dir tri ∨
        rtT eye dir tri ≤ rtEps) →
      rayTriangleIntersect eye dir tri = maxT) ∧
    (¬((-rtEps < rtDet dir tri ∧ rtDet dir tri < rtEps) ∨
        rtU eye dir tri < 0 ∨ 1 < rtU eye dir tri ∨
        rtV eye dir tri < 0 ∨ 1 < rtU eye dir tri + rtV eye dir tri ∨
        rtT eye dir tri ≤ rtEps) →
      rayTriangleIntersect eye dir tri = rtT eye dir tri ∧
      rtEps < rtT eye dir tri ∧
      vadd eye (vscale dir (rtT eye dir tri)) =
        vadd tri.v0 (vadd (vscale (vsub tri.v1 tri.v0) (rtU eye dir tri))
          (vscale (vsub tri.v2 tri.v0) (rtV eye dir tri)))) := by
  constructor
  · intro h
    rw [rayTriangleIntersect_cases]
    by_cases h1 : -rtEps < rtDet dir tri ∧ rtDet dir tri < rtEps
    · rw [if_pos h1]
    · rw [if_neg h1]
      by_cases h2 : rtU eye dir tri < 0 ∨ 1 < rtU eye dir tri
      · rw [if_pos h2]
      · rw [if_neg h2]
        by_cases h3 : rtV eye dir tri < 0 ∨ 1 < rtU eye dir tri + rtV eye dir tri
        · rw [if_pos h3]
        · rw [if_neg h3]
          have h4 : ¬ rtEps < rtT eye dir tri := by
            rcases h with hpar | hu | hu | hv | hv | ht
            · exact absurd hpar h1
            · exact absurd (Or.inl hu) h2
            · exact absurd (Or.inr hu) h2
            · exact absurd (Or.inl hv) h3
            · exact absurd (Or.inr hv) h3
            · exact not_lt.mpr ht
          rw [if_neg h4]
  · intro h
    push_neg at h
    obtain ⟨hpar, hu0, hu1, hv0, hv1, ht⟩ := h
    have heps : (0 : ℚ) < rtEps := by norm_num [rtEps]
    have hdet : rtDet dir tri ≠ 0 := by
      intro h0
      have h2 := hpar (by rw [h0]; linarith)
      rw [h0] at h2
      linarith
    rw [rayTriangleIntersect_cases]
    split_ifs with h1 h2 h3
    · exact absurd (hpar h1.1) (not_le.mpr h1.2)
    · rcases h2 with hu | hu
      · exact absurd hu (not_lt.mpr hu0)
      · exact absurd hu (not_lt.mpr hu1)
    · rcases h3 with hv | hv
      · exact absurd hv (not_lt.mpr hv0)
      · exact absurd hv (not_lt.mpr hv1)
    · exact ⟨rfl, ht, mt_point_identity eye dir tri hdet⟩

/-- C8 counterexample: a ray striking the back face of the triangle of
scenario S1 (determinant -1, well below -epsilon) returns the parametric
distance 1, not the sentinel maxT, refuting the back-face clause of the
claim. -/
theorem c8_counterexample :
    rtDet (0, 0, 1) triA = -1 ∧
    rtDet (0, 0, 1) triA < -rtEps ∧
    rayTriangleIntersect (1/4, 1/4, -1) (0, 0, 1) triA = 1 ∧
    (1 : ℚ) ≠ maxT := by decide

/-- C8 witness: the amended theorem applied to a front-face hit of the same
triangle at distance 1. -/
theorem c8_witness :
    rayTriangleIntersect (1/4, 1/4, 1) (0, 0, -1) triA = rtT (1/4, 1/4, 1) (0, 0, -1) triA ∧
    rtEps < rtT (1/4, 1/4, 1) (0, 0, -1) triA ∧
    vadd (1/4, 1/4, 1) (vscale (0, 0, -1) (rtT (1/4, 1/4, 1) (0, 0, -1) triA)) =
      vadd triA.v0 (vadd (vscale (vsub triA.v1 triA.v0) (rtU (1/4, 1/4, 1) (0, 0, -1) triA))
        (vscale (vsub triA.v2 triA.v0) (rtV (1/4, 1/4, 1) (0, 0, -1) triA))) :=
  (c8_amended (1/4, 1/4, 1) (0, 0, -1) triA).2 (by decide)

/-! ### C9: autofocus miss handling -/

theorem processLeaf_all_miss (tris : List Triangle) (eye dir : Vec3) (idx : List ℕ)
    (h : ∀ i ∈ idx, rayTriangleIntersect eye dir (triAt tris i) = maxT) :
    processLeaf tris eye dir idx = maxT := by
  unfold processLeaf
  have gen : ∀ (l : List ℕ) (res : ℚ),
      (∀ i ∈ l, rayTriangleIntersect eye dir (triAt tris i) = maxT) → res = maxT →
      l.foldl (fun res i =>
        let tmp := rayTriangleIntersect eye dir (triAt tris i)
        if tmp < res then tmp else res) res = maxT := by
    intro l
    induction l with
    | nil => intro res _ hres; exact hres
    | cons i l ih =>
      intro res hall hres
      simp only [List.foldl_cons]
      refine ih _ (fun j hj => hall j (List.mem_cons_of_mem _ hj)) ?_
      have hi := hall i (List.mem_cons_self _ _)
      simp [hi, hres]
  exact gen idx maxT h rfl

theorem findTriangles_all_miss (tris : List Triangle) (eye dir : Vec3) :
    ∀ t : Tree, (∀ i ∈ t.leavesIdx, rayTriangleIntersect eye dir (triAt tris i) = maxT) →
      ∀ c, c ≤ maxT →
        min (findTriangles tris eye dir t c) c = c ∧
        findTriangles tris eye dir t maxT = maxT := by
  intro t
  induction t with
  | leaf idx b =>
    intro h c hc
    have hp := processLeaf_all_miss tris eye dir idx h
    constructor
    · simp only [findTriangles, hp]
      exact min_eq_right hc
    · simp only [findTriangles, hp]
  | node b a k l r ihl ihr =>
    intro h c hc
    have hml : ∀ i ∈ l.leavesIdx, rayTriangleIntersect eye dir (triAt tris i) = maxT :=
      fun i hi => h i (by simp [Tree.leavesIdx, hi])
    have hmr : ∀ i ∈ r.leavesIdx, rayTriangleIntersect eye dir (triAt tris i) = maxT :=
      fun i hi => h i (by simp [Tree.leavesIdx, hi])
    have key : ∀ c', c' ≤ maxT → findTriangles tris eye dir (.node b a k l r) c' = c' := by
      intro c' hc'
      simp only [findTriangles]
      split_ifs with hLR hA hB hB hA hB hB
      · rw [(ihl hml c' hc').1, (ihr hmr c' hc').1]
      · exact (ihl hml c' hc').1
      · rw [(ihr hmr c' hc').1]
      · rfl
      · rw [(ihr hmr c' hc').1, (ihl hml c' hc').1]
      · exact (ihr hmr c' hc').1
      · rw [(ihl hml c' hc').1]
      · rfl
    exact ⟨by rw [key c hc]; exact min_self c, by rw [key maxT le_rfl]⟩

/-- C9 (amended): the probe writes lensFeatures[0] = 1 - 1/d and the focal
depth d where d is the traversal result, leaving the aperture untouched;
when every triangle of the tree misses, the traversal returns the finite
sentinel maxT = 1e6 (not infinity) without failing, so the focal depth
becomes 1e6 and lensFeatures[0] becomes 1 - 1/1e6. -/
theorem c9_amended (tris : List Triangle) (eye dir : Vec3) (root : Tree) (ap : ℚ)
    (hx : dir.1 ≠ 0) (hy : dir.2.1 ≠ 0) (hz : dir.2.2 ≠ 0) :
    shootAutoFocusRay tris eye dir root ap =
      ⟨1 - 1 / findTriangles tris eye dir root maxT, ap,
        findTriangles tris eye dir root maxT⟩ ∧
    ((∀ i ∈ root.leavesIdx, rayTriangleIntersect eye dir (triAt tris i) = maxT) →
      findTriangles tris eye dir root maxT = maxT ∧
      shootAutoFocusRay tris eye dir root ap = ⟨999999/1000000, ap, 1000000⟩) := by
  refine ⟨rfl, fun hmiss => ?_⟩
  have hd := (findTriangles_all_miss tris eye dir root hmiss maxT le_rfl).2
  refine ⟨hd, ?_⟩
  unfold shootAutoFocusRay
  rw [hd]
  unfold maxT
  norm_num

/-- C9 counterexample: on a miss the focal depth is set to the finite
sentinel 1000000 = maxT and the lens feature to 1 - 1/1000000, which is not
the value 1 that an infinite focal depth would give; the claim that the
focal depth is set to infinity fails. -/
theorem c9_counterexample :
    shootAutoFocusRay tris1 (3, 0, 0) (1, 1, 1) tree1 (1/2) =
      ⟨999999/1000000, 1/2, 1000000⟩ ∧
    (999999/1000000 : ℚ) ≠ 1 ∧
    (1000000 : ℚ) = maxT := by decide

/-- C9 witness: the amended theorem applied to the concrete missing probe. -/
theorem c9_witness :
    findTriangles tris1 (3, 0, 0) (1, 1, 1) tree1 maxT = maxT ∧
    shootAutoFocusRay tris1 (3, 0, 0) (1, 1, 1) tree1 (1/2) = ⟨999999/1000000, 1/2, 1000000⟩ :=
  (c9_amended tris1 (3, 0, 0) (1, 1, 1) tree1 (1/2) (by decide) (by decide) (by decide)).2
    (by decide)

/-! ### Serialization and packing lemmas (C2 and C7) -/

theorem serializeAux_counter : ∀ (t : Tree) (i : ℕ), (serializeAux t i).2 = i + t.size := by
  intro t
  induction t with
  | leaf idx b => intro i; rfl
  | node b a k l r ihl ihr =>
    intro i
    simp only [serializeAux, Tree.size]
    rw [ihr, ihl]
    omega

theorem serializeAux_length : ∀ (t : Tree) (i : ℕ), (serializeAux t i).1.length = t.size := by
  intro t
  induction t with
  | leaf idx b => intro i; rfl
  | node b a k l r ihl ihr =>
    intro i
    simp only [serializeAux, Tree.size, List.length_cons, List.length_append]
    rw [ihl, ihr]
    omega

theorem preorder_length : ∀ t : Tree, (preorder t).length = t.size := by
  intro t
  induction t with
  | leaf idx b => rfl
  | node b a k l r ihl ihr =>
    simp only [preorder, Tree.size, List.length_cons, List.length_append, ihl, ihr]
    omega

theorem serializeAux_nodes : ∀ (t : Tree) (i : ℕ),
    (serializeAux t i).1.map SerEntry.node = preorder t := by
  intro t
  induction t with
  | leaf idx b => intro i; rfl
  | node b a k l r ihl ihr =>
    intro i
    simp only [serializeAux, preorder, List.map_cons, List.map_append, ihl, ihr]

theorem preorder_cons : ∀ t : Tree, ∃ rest, preorder t = t :: rest := by
  intro t
  cases t with
  | leaf idx b => exact ⟨[], rfl⟩
  | node b a k l r => exact ⟨preorder l ++ preorder r, rfl⟩

theorem tree_size_pos : ∀ t : Tree, 1 ≤ t.size := by
  intro t
  cases t with
  | leaf idx b => exact le_refl 1
  | node b a k l r => simp only [Tree.size]; omega

/-- Ordinal bookkeeping of the serialized array: a leaf entry has no child
ordinals, an internal entry at position p (with the counter having started
at i) names its left child at i + p + 1 and its right child just past the
left subtree. -/
theorem serializeAux_entry : ∀ (t : Tree) (i p : ℕ), p < t.size →
    (∀ idx b, ((serializeAux t i).1.getD p dummyEntry).node = .leaf idx b →
      ((serializeAux t i).1.getD p dummyEntry).left = none ∧
      ((serializeAux t i).1.getD p dummyEntry).right = none) ∧
    (∀ b a k lt rt, ((serializeAux t i).1.getD p dummyEntry).node = .node b a k lt rt →
      ((serializeAux t i).1.getD p dummyEntry).left = some (i + p + 1) ∧
      ((serializeAux t i).1.getD p dummyEntry).right = some (i + p + 1 + lt.size)) := by
  intro t
  induction t with
  | leaf idx b =>
    intro i p hp
    have hp0 : p = 0 := by simpa [Tree.size] using hp
    subst hp0
    constructor
    · intro idx' b' _
      exact ⟨rfl, rfl⟩
    · intro b' a' k' lt rt hn
      simp only [serializeAux, List.getD_cons_zero] at hn
      exact absurd hn (by simp)
  | node b a k l r ihl ihr =>
    intro i p hp
    simp only [serializeAux]
    match p with
    | 0 =>
      constructor
      · intro idx' b' hn
        simp only [List.getD_cons_zero] at hn
        exact absurd hn (by simp)
      · intro b' a' k' lt rt hn
        simp only [List.getD_cons_zero] at hn ⊢
        injection hn with hb ha hk hl hr2
        refine ⟨trivial, ?_⟩
        rw [serializeAux_counter l (i + 1), ← hl]
    | q + 1 =>
      simp only [List.getD_cons_succ]
      by_cases hq : q < (serializeAux l (i + 1)).1.length
      · rw [List.getD_append _ _ _ _ hq]
        have hql : q < l.size := by rwa [serializeAux_length] at hq
        have := ihl (i + 1) q hql
        constructor
        · intro idx' b' hn
          exact (this.1 idx' b' hn)
        · intro b' a' k' lt rt hn
          obtain ⟨h1, h2⟩ := this.2 b' a' k' lt rt hn
          constructor
          · rw [h1]; congr 1; omega
          · rw [h2]; congr 1; omega
      · have hll : (serializeAux l (i + 1)).1.length = l.size := serializeAux_length l (i + 1)
        rw [List.getD_append_right _ _ _ _ (Nat.le_of_not_lt hq), hll,
          serializeAux_counter l (i + 1)]
        have hlq : l.size ≤ q := by omega
        have hqr : q - l.size < r.size := by
          simp only [Tree.size] at hp
          omega
        have hr3 := ihr (i + 1 + l.size) (q - l.size) hqr
        constructor
        · intro idx' b' hn
          exact hr3.1 idx' b' hn
        · intro b' a' k' lt rt hn
          obtain ⟨h1, h2⟩ := hr3.2 b' a' k' lt rt hn
          constructor
          · rw [h1]; congr 1; omega
          · rw [h2]; congr 1; omega

/-- Dropping to any preorder position lands on the preorder of the subtree
rooted there, followed by a remainder. -/
theorem preorder_drop_ex : ∀ (t : Tree) (p : ℕ), p < t.size →
    ∃ rest, (preorder t).drop p = preorder ((preorder t).getD p dummyTree) ++ rest := by
  intro t
  induction t with
  | leaf idx b =>
    intro p hp
    have hp0 : p = 0 := by simpa [Tree.size] using hp
    subst hp0
    exact ⟨[], rfl⟩
  | node b a k l r ihl ihr =>
    intro p hp
    match p with
    | 0 => exact ⟨[], by simp [preorder]⟩
    | q + 1 =>
      simp only [preorder, List.drop_succ_cons, List.getD_cons_succ]
      by_cases hq : q < (preorder l).length
      · have hql : q < l.size := by rwa [preorder_length] at hq
        obtain ⟨rest, hrest⟩ := ihl q hql
        refine ⟨rest ++ preorder r, ?_⟩
        rw [List.drop_append_of_le_length (Nat.le_of_lt hq),
          List.getD_append _ _ _ _ hq, hrest, List.append_assoc]
      · have hql : (preorder l).length ≤ q := Nat.le_of_not_lt hq
        have hqr : q - (preorder l).length < r.size := by
          rw [preorder_length] at hql ⊢
          simp only [Tree.size] at hp
          omega
        obtain ⟨rest, hrest⟩ := ihr _ hqr
        refine ⟨rest, ?_⟩
        have hdrop : List.drop q (preorder l ++ preorder r) =
            List.drop (q - (preorder l).length) (preorder r) := by
          rw [List.drop_append_eq_append_drop, List.drop_eq_nil_of_le hql]
          rfl
        rw [hdrop, List.getD_append_right _ _ _ _ hql, hrest]

theorem leafTriFloats_length (tris : List Triangle) : ∀ (idx : List ℕ) (b : BoundingBox),
    (leafTriFloats tris (.leaf idx b)).length = 9 * idx.length := by
  intro idx b
  induction idx with
  | nil => rfl
  | cons i rest ih =>
    simp only [leafTriFloats, List.flatMap_cons, List.length_append] at ih ⊢
    rw [ih]
    simp [vertsFlat]
    omega

theorem leafTriFloats_count (tris : List Triangle) (e : SerEntry) :
    (leafTriFloats tris e.node).length = 9 * leafTriCountE e := by
  obtain ⟨t, el, er⟩ := e
  cases t with
  | leaf idx b => simpa [leafTriCountE] using leafTriFloats_length tris idx b
  | node b a k l r => simp [leafTriFloats, leafTriCountE]

theorem nine_div_nine (c : ℕ) : 9 * c / 3 / 3 = c := by
  have h1 : 9 * c = 3 * (3 * c) := by ring
  rw [h1, Nat.mul_div_cancel_left _ (by norm_num), Nat.mul_div_cancel_left _ (by norm_num)]

theorem packRecordsAux_length (tris : List Triangle) :
    ∀ (es : List SerEntry) (buf : List ℚ), (packRecordsAux tris es buf).length = es.length := by
  intro es
  induction es with
  | nil => intro buf; rfl
  | cons e rest ih => intro buf; simp [packRecordsAux, ih]

/-- Each packed record is the record of the matching serialized entry, with
the triangle-buffer length at that point equal to the initial length plus
nine floats per triangle of every earlier leaf. -/
theorem packRecordsAux_getD (tris : List Triangle) :
    ∀ (es : List SerEntry) (buf : List ℚ) (p : ℕ), p < es.length →
      (packRecordsAux tris es buf).getD p [] =
        mkRecord (es.getD p dummyEntry) ((buf.length + 9 * cumTri (es.take p)) / 3 / 3) := by
  intro es
  induction es with
  | nil => intro buf p hp; simp at hp
  | cons e rest ih =>
    intro buf p hp
    match p with
    | 0 => simp [packRecordsAux, cumTri]
    | q + 1 =>
      simp only [packRecordsAux, List.getD_cons_succ]
      rw [ih _ q (by simpa using hp)]
      congr 2
      simp only [List.length_append, leafTriFloats_count, List.take_succ_cons, cumTri,
        List.map_cons, List.sum_cons]
      ring

/-- C7: serializeTree emits one record per node in depth-first preorder with
the root at ordinal 0; an internal node at ordinal p has its left child at
ordinal p + 1 and its two subtrees occupy the contiguous ordinal ranges
following p; the packer appends leaf triangles in leaf-visit order, so a
leaf record carries the cumulative triangle count of all earlier leaves as
its base index. -/
theorem c7_serialization (tris : List Triangle) (t : Tree) :
    (serializeTree t).length = t.size ∧
    (serializeTree t).map SerEntry.node = preorder t ∧
    (entryAt t 0).node = t ∧
    (∀ p b a k lt rt, p < t.size → (entryAt t p).node = .node b a k lt rt →
      (entryAt t p).left = some (p + 1) ∧
      (entryAt t p).right = some (p + 1 + lt.size) ∧
      (((serializeTree t).map SerEntry.node).drop (p + 1)).take lt.size = preorder lt ∧
      (((serializeTree t).map SerEntry.node).drop (p + 1 + lt.size)).take rt.size =
        preorder rt) ∧
    (∀ p idx b, p < t.size → (entryAt t p).node = .leaf idx b →
      (recordAt tris t p).getD 2 JsVal.undef = .num (cumTri ((serializeTree t).take p))) := by
  have hlen : (serializeTree t).length = t.size := serializeAux_length t 0
  have hnodes : (serializeTree t).map SerEntry.node = preorder t := serializeAux_nodes t 0
  have hgetnode : ∀ p, (entryAt t p).node = (preorder t).getD p dummyTree := by
    intro p
    rw [← hnodes]
    exact (List.getD_map (serializeTree t) dummyEntry SerEntry.node).symm
  refine ⟨hlen, hnodes, ?_, ?_, ?_⟩
  · obtain ⟨rest, hrest⟩ := preorder_cons t
    rw [hgetnode 0, hrest]
    rfl
  · intro p b a k lt rt hp hn
    have hent := serializeAux_entry t 0 p (by omega)
    obtain ⟨h1, h2⟩ := hent.2 b a k lt rt hn
    rw [Nat.zero_add] at h1 h2
    refine ⟨h1, h2, ?_, ?_⟩
    · rw [hnodes]
      obtain ⟨rest, hrest⟩ := preorder_drop_ex t p (by omega)
      rw [← hgetnode p, hn] at hrest
      have hdrop : (preorder t).drop (p + 1) = preorder lt ++ (preorder rt ++ rest) := by
        have h1p : (preorder t).drop (p + 1) = ((preorder t).drop p).drop 1 := by
          rw [List.drop_drop]
        rw [h1p, hrest]
        simp [preorder]
      rw [hdrop, ← preorder_length lt, List.take_left]
    · rw [hnodes]
      obtain ⟨rest, hrest⟩ := preorder_drop_ex t p (by omega)
      rw [← hgetnode p, hn] at hrest
      have hdrop : (preorder t).drop (p + 1 + lt.size) = preorder rt ++ rest := by
        have h1p : (preorder t).drop (p + 1 + lt.size) =
            (((preorder t).drop p).drop 1).drop lt.size := by
          rw [List.drop_drop, List.drop_drop]
          congr 1
          omega
        rw [h1p, hrest]
        simp only [preorder, List.cons_append, List.drop_succ_cons, List.drop_zero,
          List.append_assoc]
        rw [← preorder_length lt, List.drop_left]
      rw [hdrop, ← preorder_length rt, List.take_left]
  · intro p idx b hp hn
    have hrec := packRecordsAux_getD tris (serializeTree t) [] p (by omega)
    have hthis : recordAt tris t p =
        mkRecord (entryAt t p) ((0 + 9 * cumTri ((serializeTree t).take p)) / 3 / 3) := hrec
    rw [hthis, Nat.zero_add, nine_div_nine]
    simp [mkRecord, hn]

/-- C2 counterexample: in the packed buffer of a single-leaf tree, the leaf
record carries 0 (the Int32 coercion of the undefined serialized field) in
the leftChildOrdinal cell, not -1 as the claim states. -/
theorem c2_counterexample :
    (recordAt tris1 tree1 0).getD 0 JsVal.undef = JsVal.undef ∧
    maskInt ((recordAt tris1 tree1 0).getD 0 JsVal.undef) = 0 ∧
    (0 : ℤ) ≠ -1 := by decide

/-- C2 (amended): in the packed bvhBuffer every leaf record carries
leftChildOrdinal = rightChildOrdinal = 0 after the Int32 reinterpretation
(the serializer leaves the two fields undefined and ToInt32 maps them to 0,
not -1), with triangleBaseIndex equal to the cumulative triangle count of
the earlier leaves; every internal record carries triangleBaseIndex = -1. -/
theorem c2_amended (tris : List Triangle) (t : Tree) :
    ∀ p, p < t.size →
      (∀ idx b, (entryAt t p).node = .leaf idx b →
        (recordAt tris t p).getD 0 JsVal.undef = JsVal.undef ∧
        (recordAt tris t p).getD 1 JsVal.undef = JsVal.undef ∧
        maskInt ((recordAt tris t p).getD 0 JsVal.undef) = 0 ∧
        maskInt ((recordAt tris t p).getD 1 JsVal.undef) = 0 ∧
        (recordAt tris t p).getD 2 JsVal.undef =
          .num (cumTri ((serializeTree t).take p))) ∧
      (∀ b a k lt rt, (entryAt t p).node = .node b a k lt rt →
        (recordAt tris t p).getD 2 JsVal.undef = .num (-1) ∧
        maskInt ((recordAt tris t p).getD 2 JsVal.undef) = -1) := by
  intro p hp
  have hlen2 : (serializeTree t).length = t.size := serializeAux_length t 0
  have hrec := packRecordsAux_getD tris (serializeTree t) [] p (by omega)
  have hrec2 : recordAt tris t p =
      mkRecord (entryAt t p) ((0 + 9 * cumTri ((serializeTree t).take p)) / 3 / 3) := hrec
  rw [Nat.zero_add, nine_div_nine] at hrec2
  have hent := serializeAux_entry t 0 p (by omega)
  constructor
  · intro idx b hn
    obtain ⟨hl, hr⟩ := hent.1 idx b hn
    have hl2 : (entryAt t p).left = none := hl
    have hr2 : (entryAt t p).right = none := hr
    have h0 : (recordAt tris t p).getD 0 JsVal.undef = JsVal.undef := by
      rw [hrec2]
      simp [mkRecord, hl2, cellOf]
    have h1 : (recordAt tris t p).getD 1 JsVal.undef = JsVal.undef := by
      rw [hrec2]
      simp [mkRecord, hr2, cellOf]
    have h2 : (recordAt tris t p).getD 2 JsVal.undef =
        .num (cumTri ((serializeTree t).take p)) := by
      rw [hrec2]
      simp [mkRecord, hn]
    exact ⟨h0, h1, by rw [h0]; rfl, by rw [h1]; rfl, h2⟩
  · intro b a k lt rt hn
    have hcell : (recordAt tris t p).getD 2 JsVal.undef = .num (-1) := by
      rw [hrec2]
      simp [mkRecord, hn]
    refine ⟨hcell, ?_⟩
    rw [hcell]
    decide

/-- C2 witness: the amended theorem applied to the two-leaf tree, ordinal 1
(the first leaf): both child cells mask to 0 and the base index is 0. -/
theorem c2_witness :
    maskInt ((recordAt tris2 wTree 1).getD 0 JsVal.undef) = 0 ∧
    maskInt ((recordAt tris2 wTree 1).getD 1 JsVal.undef) = 0 ∧
    (recordAt tris2 wTree 1).getD 2 JsVal.undef =
      .num (cumTri ((serializeTree wTree).take 1)) := by
  have h := (c2_amended tris2 wTree 1 (by decide)).1 [0] (triBox triA) (by decide)
  exact ⟨h.2.2.1, h.2.2.2.1, h.2.2.2.2⟩

/-- C7 witness: the theorem applied to the two-leaf tree: ordinal facts of
the root and the cumulative base index of the second leaf. -/
theorem c7_witness :
    (entryAt wTree 0).left = some 1 ∧
    (entryAt wTree 0).right = some 2 ∧
    (recordAt tris2 wTree 2).getD 2 JsVal.undef =
      .num (cumTri ((serializeTree wTree).take 2)) := by
  have h4 := (c7_serialization tris2 wTree).2.2.2.1 0 (boxUnion (triBox triA) (triBox triB))
    0 1 wLeaf0 wLeaf1 (by decide) (by decide)
  have h5 := (c7_serialization tris2 wTree).2.2.2.2 2 [1] (triBox triB) (by decide) (by decide)
  exact ⟨by simpa using h4.1, by simpa using h4.2.1, h5⟩

/-! ### Bounding box order lemmas -/

theorem vle_refl (v : Vec3) : vle v v := ⟨le_refl _, le_refl _, le_refl _⟩

theorem vle_trans {a b c : Vec3} (h1 : vle a b) (h2 : vle b c) : vle a c :=
  ⟨h1.1.trans h2.1, h1.2.1.trans h2.2.1, h1.2.2.trans h2.2.2⟩

theorem vle_antisymm {a b : Vec3} (h1 : vle a b) (h2 : vle b a) : a = b := by
  obtain ⟨a1, a2, a3⟩ := a
  obtain ⟨b1, b2, b3⟩ := b
  obtain ⟨g1, g2, g3⟩ := h1
  obtain ⟨l1, l2, l3⟩ := h2
  simp only [Prod.mk.injEq]
  exact ⟨le_antisymm g1 l1, le_antisymm g2 l2, le_antisymm g3 l3⟩

theorem vmin_le_left (a b : Vec3) : vle (vmin a b) a :=
  ⟨min_le_left _ _, min_le_left _ _, min_le_left _ _⟩

theorem vmin_le_right (a b : Vec3) : vle (vmin a b) b :=
  ⟨min_le_right _ _, min_le_right _ _, min_le_right _ _⟩

theorem le_vmin {a b c : Vec3} (h1 : vle c a) (h2 : vle c b) : vle c (vmin a b) :=
  ⟨le_min h1.1 h2.1, le_min h1.2.1 h2.2.1, le_min h1.2.2 h2.2.2⟩

theorem vle_vmax_left (a b : Vec3) : vle a (vmax a b) :=
  ⟨le_max_left _ _, le_max_left _ _, le_max_left _ _⟩

theorem vle_vmax_right (a b : Vec3) : vle b (vmax a b) :=
  ⟨le_max_right _ _, le_max_right _ _, le_max_right _ _⟩

theorem vmax_le {a b c : Vec3} (h1 : vle a c) (h2 : vle b c) : vle (vmax a b) c :=
  ⟨max_le h1.1 h2.1, max_le h1.2.1 h2.2.1, max_le h1.2.2 h2.2.2⟩

theorem boxLE_refl (b : BoundingBox) : BoxLE b b := ⟨vle_refl _, vle_refl _⟩

theorem boxLE_trans {a b c : BoundingBox} (h1 : BoxLE a b) (h2 : BoxLE b c) : BoxLE a c :=
  ⟨vle_trans h2.1 h1.1, vle_trans h1.2 h2.2⟩

theorem boxLE_antisymm {a b : BoundingBox} (h1 : BoxLE a b) (h2 : BoxLE b a) : a = b := by
  have hmin : a.bmin = b.bmin := vle_antisymm h2.1 h1.1
  have hmax : a.bmax = b.bmax := vle_antisymm h1.2 h2.2
  cases a
  cases b
  simp_all

theorem triBox_wf (t : Triangle) : BoxWF (triBox t) := by
  refine vle_trans (vmin_le_left _ _) (vle_vmax_left _ _)

theorem boxUnion_wf {a b : BoundingBox} (ha : BoxWF a) (_hb : BoxWF b) :
    BoxWF (boxUnion a b) :=
  vle_trans (vmin_le_left _ _) (vle_trans ha (vle_vmax_left _ _))

theorem boxUnion_le_left (a b : BoundingBox) : BoxLE a (boxUnion a b) :=
  ⟨vmin_le_left _ _, vle_vmax_left _ _⟩

theorem boxUnion_le_right (a b : BoundingBox) : BoxLE b (boxUnion a b) :=
  ⟨vmin_le_right _ _, vle_vmax_right _ _⟩

theorem boxUnion_lub {a b c : BoundingBox} (h1 : BoxLE a c) (h2 : BoxLE b c) :
    BoxLE (boxUnion a b) c :=
  ⟨le_vmin h1.1 h2.1, vmax_le h1.2 h2.2⟩

theorem foldl_union_wf (tris : List Triangle) :
    ∀ (l : List ℕ) (acc : BoundingBox), BoxWF acc →
      BoxWF (l.foldl (fun b j => boxUnion b (triBox (triAt tris j))) acc) := by
  intro l
  induction l with
  | nil => intro acc h; exact h
  | cons j rest ih =>
    intro acc h
    exact ih _ (boxUnion_wf h (triBox_wf _))

theorem boxOfIdx_wf (tris : List Triangle) : ∀ l : List ℕ, BoxWF (boxOfIdx tris l) := by
  intro l
  cases l with
  | nil => exact ⟨le_refl _, le_refl _, le_refl _⟩
  | cons i rest => exact foldl_union_wf tris rest _ (triBox_wf _)

theorem foldl_union_le_init (tris : List Triangle) :
    ∀ (l : List ℕ) (acc : BoundingBox),
      BoxLE acc (l.foldl (fun b j => boxUnion b (triBox (triAt tris j))) acc) := by
  intro l
  induction l with
  | nil => intro acc; exact boxLE_refl _
  | cons j rest ih =>
    intro acc
    exact boxLE_trans (boxUnion_le_left _ _) (ih _)

theorem foldl_union_le_mem (tris : List Triangle) :
    ∀ (l : List ℕ) (acc : BoundingBox) (i : ℕ), i ∈ l →
      BoxLE (triBox (triAt tris i))
        (l.foldl (fun b j => boxUnion b (triBox (triAt tris j))) acc) := by
  intro l
  induction l with
  | nil => intro acc i hi; exact absurd hi (List.not_mem_nil i)
  | cons j rest ih =>
    intro acc i hi
    rcases List.mem_cons.mp hi with rfl | hi
    · exact boxLE_trans (boxUnion_le_right _ _) (foldl_union_le_init tris rest _)
    · exact ih _ i hi

theorem foldl_union_lub (tris : List Triangle) (B : BoundingBox) :
    ∀ (l : List ℕ) (acc : BoundingBox), BoxLE acc B →
      (∀ i ∈ l, BoxLE (triBox (triAt tris i)) B) →
      BoxLE (l.foldl (fun b j => boxUnion b (triBox (triAt tris j))) acc) B := by
  intro l
  induction l with
  | nil => intro acc h _; exact h
  | cons j rest ih =>
    intro acc h hall
    exact ih _ (boxUnion_lub h (hall j (List.mem_cons_self _ _)))
      (fun i hi => hall i (List.mem_cons_of_mem _ hi))

theorem le_boxOfIdx (tris : List Triangle) (l : List ℕ) (i : ℕ) (hi : i ∈ l) :
    BoxLE (triBox (triAt tris i)) (boxOfIdx tris l) := by
  cases l with
  | nil => exact absurd hi (List.not_mem_nil i)
  | cons j rest =>
    rcases List.mem_cons.mp hi with rfl | hi
    · exact foldl_union_le_init tris rest _
    · exact foldl_union_le_mem tris rest _ i hi

theorem boxOfIdx_le (tris : List Triangle) (B : BoundingBox) (l : List ℕ) (hne : l ≠ [])
    (hall : ∀ i ∈ l, BoxLE (triBox (triAt tris i)) B) : BoxLE (boxOfIdx tris l) B := by
  cases l with
  | nil => exact absurd rfl hne
  | cons j rest =>
    exact foldl_union_lub tris B rest _ (hall j (List.mem_cons_self _ _))
      (fun i hi => hall i (List.mem_cons_of_mem _ hi))

theorem boxOfIdx_subset (tris : List Triangle) (l1 l2 : List ℕ) (hne : l1 ≠ [])
    (hsub : ∀ i ∈ l1, i ∈ l2) : BoxLE (boxOfIdx tris l1) (boxOfIdx tris l2) :=
  boxOfIdx_le tris _ l1 hne (fun i hi => le_boxOfIdx tris l2 i (hsub i hi))

theorem boxOfIdx_perm (tris : List Triangle) {l1 l2 : List ℕ} (hp : l1.Perm l2)
    (hne : l1 ≠ []) : boxOfIdx tris l1 = boxOfIdx tris l2 := by
  have hne2 : l2 ≠ [] := by
    intro h
    subst h
    exact hne (List.length_eq_zero.mp hp.length_eq)
  exact boxLE_antisymm
    (boxOfIdx_subset tris l1 l2 hne (fun i hi => hp.mem_iff.mp hi))
    (boxOfIdx_subset tris l2 l1 hne2 (fun i hi => hp.mem_iff.mpr hi))

theorem surfaceArea_nonneg {b : BoundingBox} (h : BoxWF b) : 0 ≤ b.surfaceArea := by
  obtain ⟨h1, h2, h3⟩ := h
  simp only [BoundingBox.surfaceArea]
  have e1 : (0 : ℚ) ≤ b.bmax.1 - b.bmin.1 := by linarith
  have e2 : (0 : ℚ) ≤ b.bmax.2.1 - b.bmin.2.1 := by linarith
  have e3 : (0 : ℚ) ≤ b.bmax.2.2 - b.bmin.2.2 := by linarith
  nlinarith [mul_nonneg e1 e2, mul_nonneg e1 e3, mul_nonneg e2 e3]

theorem surfaceArea_mono {a b : BoundingBox} (ha : BoxWF a) (hle : BoxLE a b) :
    a.surfaceArea ≤ b.surfaceArea := by
  obtain ⟨⟨m1, m2, m3⟩, ⟨x1, x2, x3⟩⟩ := hle
  obtain ⟨w1, w2, w3⟩ := ha
  simp only [BoundingBox.surfaceArea]
  have e1 : (0 : ℚ) ≤ a.bmax.1 - a.bmin.1 := by linarith
  have e2 : (0 : ℚ) ≤ a.bmax.2.1 - a.bmin.2.1 := by linarith
  have e3 : (0 : ℚ) ≤ a.bmax.2.2 - a.bmin.2.2 := by linarith
  have f1 : a.bmax.1 - a.bmin.1 ≤ b.bmax.1 - b.bmin.1 := by linarith
  have f2 : a.bmax.2.1 - a.bmin.2.1 ≤ b.bmax.2.1 - b.bmin.2.1 := by linarith
  have f3 : a.bmax.2.2 - a.bmin.2.2 ≤ b.bmax.2.2 - b.bmin.2.2 := by linarith
  linarith [mul_le_mul f1 f2 e2 (by linarith : (0 : ℚ) ≤ b.bmax.1 - b.bmin.1),
    mul_le_mul f1 f3 e3 (by linarith : (0 : ℚ) ≤ b.bmax.1 - b.bmin.1),
    mul_le_mul f2 f3 e3 (by linarith : (0 : ℚ) ≤ b.bmax.2.1 - b.bmin.2.1)]

/-! ### Analysis of setSplit -/

theorem idx_get_perm {ind : IdxLists} (hwf : IdxWF ind) (a : ℕ) :
    (ind.get a).Perm ind.x := by
  unfold IdxLists.get
  split_ifs with h0 h1
  · exact List.Perm.refl _
  · exact hwf.1
  · exact hwf.2.1

theorem sweepFrontSA_getD (tris : List Triangle) (idx : List ℕ) (j : ℕ)
    (hj : j < idx.length) :
    (sweepFrontSA tris idx).getD j 0 = (boxOfIdx tris (idx.take (j + 1))).surfaceArea := by
  unfold sweepFrontSA
  rw [List.getD_eq_getElem _ _ (by simpa using hj)]
  simp

theorem take_succ_ne_nil {α : Type} (l : List α) (j : ℕ) (hj : j < l.length) :
    l.take (j + 1) ≠ [] := by
  intro h
  have hlen : (l.take (j + 1)).length = 0 := by rw [h]; rfl
  rw [List.length_take] at hlen
  omega

theorem sa_sub_bounds (tris : List Triangle) (sub big : List ℕ) (hne : sub ≠ [])
    (hsub : ∀ i ∈ sub, i ∈ big) :
    0 ≤ (boxOfIdx tris sub).surfaceArea ∧
      (boxOfIdx tris sub).surfaceArea ≤ (boxOfIdx tris big).surfaceArea :=
  ⟨surfaceArea_nonneg (boxOfIdx_wf tris sub),
    surfaceArea_mono (boxOfIdx_wf tris sub) (boxOfIdx_subset tris sub big hne hsub)⟩

theorem sweepFront_bounds (tris : List Triangle) {ind : IdxLists} (hwf : IdxWF ind)
    (a j : ℕ) (hj : j < (ind.get a).length) :
    0 ≤ (sweepFrontSA tris (ind.get a)).getD j 0 ∧
      (sweepFrontSA tris (ind.get a)).getD j 0 ≤ (boxOfIdx tris ind.x).surfaceArea := by
  rw [sweepFrontSA_getD _ _ _ hj]
  apply sa_sub_bounds
  · exact take_succ_ne_nil _ _ hj
  · intro i hi
    exact (idx_get_perm hwf a).mem_iff.mp (List.mem_of_mem_take hi)

theorem sweepBack_bounds (tris : List Triangle) {ind : IdxLists} (hwf : IdxWF ind)
    (a j : ℕ) (hj : j < (ind.get a).length) :
    0 ≤ (sweepBackSA tris (ind.get a)).getD j 0 ∧
      (sweepBackSA tris (ind.get a)).getD j 0 ≤ (boxOfIdx tris ind.x).surfaceArea := by
  unfold sweepBackSA
  rw [sweepFrontSA_getD _ _ _ (by simpa using hj)]
  apply sa_sub_bounds
  · exact take_succ_ne_nil _ _ (by simpa using hj)
  · intro i hi
    have h1 : i ∈ (ind.get a).reverse := List.mem_of_mem_take hi
    rw [List.mem_reverse] at h1
    exact (idx_get_perm hwf a).mem_iff.mp h1

theorem costOf_eq_num (tris : List Triangle) (ind : IdxLists) (parentSA : ℚ)
    (hpa : parentSA ≠ 0) (a i : ℕ) :
    costOf tris ind parentSA a i = .num (costQ tris ind parentSA a i) := by
  simp only [costOf, costQ, qdivJs, if_neg hpa, JsNum.mulNat, JsNum.add, JsNum.num.injEq]
  push_cast
  ring

theorem mem_axisCands {ind : IdxLists} {c : ℕ × ℕ} (hc : c ∈ axisCands ind) :
    c.1 ≤ 2 ∧ c.2 < (ind.get c.1).length := by
  unfold axisCands at hc
  rw [List.mem_flatMap] at hc
  obtain ⟨a, ha, hc2⟩ := hc
  rw [List.mem_map] at hc2
  obtain ⟨i, hi, rfl⟩ := hc2
  rw [List.mem_range] at hi
  refine ⟨?_, hi⟩
  simp only [List.mem_cons, List.not_mem_nil, or_false] at ha
  rcases ha with rfl | rfl | rfl <;> norm_num

theorem costOf_nan_of_sa_zero (tris : List Triangle) {ind : IdxLists} (hwf : IdxWF ind)
    (hsa : (boxOfIdx tris ind.x).surfaceArea = 0) {c : ℕ × ℕ} (hc : c ∈ axisCands ind) :
    costOf tris ind ((boxOfIdx tris ind.x).surfaceArea) c.1 c.2 = .nan := by
  obtain ⟨_, hi⟩ := mem_axisCands hc
  obtain ⟨hf0, hf1⟩ := sweepFront_bounds tris hwf c.1 c.2 hi
  have hbi : (ind.get c.1).length - 1 - c.2 < (ind.get c.1).length := by omega
  obtain ⟨hb0, hb1⟩ := sweepBack_bounds tris hwf c.1 _ hbi
  rw [hsa] at hf1 hb1
  have hfz : (sweepFrontSA tris (ind.get c.1)).getD c.2 0 = 0 := le_antisymm hf1 hf0
  have hbz : (sweepBackSA tris (ind.get c.1)).getD ((ind.get c.1).length - 1 - c.2) 0 = 0 :=
    le_antisymm hb1 hb0
  simp only [costOf, hfz, hbz, hsa, qdivJs, if_pos rfl]
  rfl

theorem splitStep_posInf (tris : List Triangle) (ind : IdxLists) (pa : ℚ) (c : ℕ × ℕ)
    (q : ℚ) (h : costOf tris ind pa c.1 c.2 = .num q) :
    splitStep tris ind pa (.posInf, none) c = (.num q, some (c.1, c.2 + 1)) := by
  unfold splitStep
  rw [h]
  rfl

theorem splitFold_stays_none (tris : List Triangle) (ind : IdxLists) (pa : ℚ)
    (hnan : ∀ c ∈ axisCands ind, costOf tris ind pa c.1 c.2 = .nan) :
    splitFold tris ind pa = (.posInf, none) := by
  unfold splitFold
  have key : ∀ l : List (ℕ × ℕ), (∀ c ∈ l, costOf tris ind pa c.1 c.2 = .nan) →
      l.foldl (splitStep tris ind pa) (.posInf, none) = (.posInf, none) := by
    intro l
    induction l with
    | nil => intro _; rfl
    | cons c l ih =>
      intro hall
      rw [List.foldl_cons]
      have hstep : splitStep tris ind pa (.posInf, none) c = (.posInf, none) := by
        unfold splitStep
        rw [hall c (List.mem_cons_self _ _)]
        rfl
      rw [hstep]
      exact ih (fun d hd => hall d (List.mem_cons_of_mem _ hd))
  exact key _ hnan

/-- Degenerate scenes: a zero parent surface area makes every cost NaN, no
comparison with Infinity succeeds, and setSplit selects nothing. -/
theorem setSplit_none_of_sa_zero (tris : List Triangle) {ind : IdxLists} (hwf : IdxWF ind)
    (hsa : (boxOfIdx tris ind.x).surfaceArea = 0) :
    setSplit tris ind = none := by
  unfold setSplit
  rw [splitFold_stays_none tris ind _ (fun c hc => costOf_nan_of_sa_zero tris hwf hsa hc)]

theorem costQ_le (tris : List Triangle) {ind : IdxLists} (hwf : IdxWF ind)
    (hpos : 0 < (boxOfIdx tris ind.x).surfaceArea) (a i : ℕ)
    (hi : i < (ind.get a).length) :
    costQ tris ind ((boxOfIdx tris ind.x).surfaceArea) a i ≤
      1 + ((ind.get a).length : ℚ) := by
  obtain ⟨hf0, hf1⟩ := sweepFront_bounds tris hwf a i hi
  have hbi : (ind.get a).length - 1 - i < (ind.get a).length := by omega
  obtain ⟨hb0, hb1⟩ := sweepBack_bounds tris hwf a _ hbi
  simp only [costQ]
  have r1 : (sweepFrontSA tris (ind.get a)).getD i 0 / (boxOfIdx tris ind.x).surfaceArea ≤ 1 :=
    (div_le_one hpos).mpr hf1
  have s1 : (sweepBackSA tris (ind.get a)).getD ((ind.get a).length - 1 - i) 0 /
      (boxOfIdx tris ind.x).surfaceArea ≤ 1 := (div_le_one hpos).mpr hb1
  have t1 : (sweepFrontSA tris (ind.get a)).getD i 0 / (boxOfIdx tris ind.x).surfaceArea * 1 *
      ((i + 1 : ℕ) : ℚ) ≤ ((i + 1 : ℕ) : ℚ) := by
    rw [mul_one]
    exact mul_le_of_le_one_left (Nat.cast_nonneg _) r1
  have t2 : (sweepBackSA tris (ind.get a)).getD ((ind.get a).length - 1 - i) 0 /
      (boxOfIdx tris ind.x).surfaceArea * 1 * (((ind.get a).length - 1 - i : ℕ) : ℚ) ≤
      (((ind.get a).length - 1 - i : ℕ) : ℚ) := by
    rw [mul_one]
    exact mul_le_of_le_one_left (Nat.cast_nonneg _) s1
  have hcast : ((i + 1 : ℕ) : ℚ) + (((ind.get a).length - 1 - i : ℕ) : ℚ) ≤
      ((ind.get a).length : ℚ) := by
    rw [← Nat.cast_add]
    exact_mod_cast (by omega : i + 1 + ((ind.get a).length - 1 - i) ≤ (ind.get a).length)
  linarith

theorem costQ_last (tris : List Triangle) {ind : IdxLists} (hwf : IdxWF ind)
    (hpos : 0 < (boxOfIdx tris ind.x).surfaceArea) (a : ℕ)
    (hn : 1 ≤ (ind.get a).length) :
    costQ tris ind ((boxOfIdx tris ind.x).surfaceArea) a ((ind.get a).length - 1) =
      1 + ((ind.get a).length : ℚ) := by
  have hlt : (ind.get a).length - 1 < (ind.get a).length := by omega
  simp only [costQ]
  rw [sweepFrontSA_getD _ _ _ hlt]
  have htake : (ind.get a).take ((ind.get a).length - 1 + 1) = ind.get a := by
    have h1 : (ind.get a).length - 1 + 1 = (ind.get a).length := by omega
    rw [h1, List.take_length]
  rw [htake]
  have hne : ind.get a ≠ [] := by
    intro h
    rw [h] at hn
    simp at hn
  rw [boxOfIdx_perm tris (idx_get_perm hwf a) hne]
  rw [div_self (ne_of_gt hpos)]
  have hz : (ind.get a).length - 1 - ((ind.get a).length - 1) = 0 := by omega
  rw [hz]
  have hc : (((ind.get a).length - 1 + 1 : ℕ) : ℚ) = ((ind.get a).length : ℚ) := by
    have h1 : (ind.get a).length - 1 + 1 = (ind.get a).length := by omega
    rw [h1]
  rw [hc]
  push_cast
  ring

theorem axisCands_cons (ind : IdxLists) (h0 : 0 < (ind.get 0).length) :
    ∃ rest, axisCands ind = (0, 0) :: rest := by
  unfold axisCands
  obtain ⟨m, hm⟩ : ∃ m, (ind.get 0).length = m + 1 := ⟨(ind.get 0).length - 1, by omega⟩
  simp only [List.flatMap_cons, List.flatMap_nil, List.append_nil]
  rw [hm, List.range_succ_eq_map]
  refine ⟨((List.range m).map Nat.succ).map (fun i => ((0 : ℕ), i)) ++
    ((List.range (ind.get 1).length).map (fun i => ((1 : ℕ), i)) ++
      (List.range (ind.get 2).length).map (fun i => ((2 : ℕ), i))), ?_⟩
  simp only [List.map_cons, List.cons_append]

theorem splitFold_go (tris : List Triangle) (ind : IdxLists) (pa : ℚ) (n : ℕ) :
    ∀ (l : List (ℕ × ℕ)) (st : JsNum × Option (ℕ × ℕ)),
      (∃ q a kk, st = (.num q, some (a, kk)) ∧ q ≤ 1 + (n : ℚ) ∧ a ≤ 2 ∧ 1 ≤ kk ∧
        kk + 1 ≤ n) →
      (∀ c ∈ l, ∃ qc, costOf tris ind pa c.1 c.2 = .num qc ∧ qc ≤ 1 + (n : ℚ) ∧
        c.1 ≤ 2 ∧ (c.2 + 2 ≤ n ∨ qc = 1 + (n : ℚ))) →
      ∃ q a kk, l.foldl (splitStep tris ind pa) st = (.num q, some (a, kk)) ∧
        q ≤ 1 + (n : ℚ) ∧ a ≤ 2 ∧ 1 ≤ kk ∧ kk + 1 ≤ n := by
  intro l
  induction l with
  | nil =>
    intro st h _
    exact h
  | cons c l ih =>
    intro st hst hall
    obtain ⟨q, a, kk, hst_eq, hq, ha, hk1, hk2⟩ := hst
    obtain ⟨qc, hcost, hqc, hc1, hc2⟩ := hall c (List.mem_cons_self _ _)
    rw [List.foldl_cons]
    refine ih _ ?_ (fun d hd => hall d (List.mem_cons_of_mem _ hd))
    subst hst_eq
    simp only [splitStep, hcost, JsNum.lt, decide_eq_true_eq]
    by_cases hlt : qc < q
    · rw [if_pos hlt]
      rcases hc2 with hsmall | hlast
      · exact ⟨qc, c.1, c.2 + 1, rfl, hqc, hc1, by omega, by omega⟩
      · exfalso
        rw [hlast] at hlt
        linarith
    · rw [if_neg hlt]
      exact ⟨q, a, kk, rfl, hq, ha, hk1, hk2⟩

/-- Nondegenerate scenes: with at least two triangles and a nonzero parent
surface area, setSplit always selects some axis at most 2 and a split index
1 ≤ k ≤ n - 1, where n is the triangle count of the node. -/
theorem setSplit_bounds (tris : List Triangle) {ind : IdxLists} (hwf : IdxWF ind)
    (hn2 : 2 ≤ ind.x.length)
    (hsa : (boxOfIdx tris ind.x).surfaceArea ≠ 0) :
    ∃ a kk, setSplit tris ind = some (a, kk) ∧ a ≤ 2 ∧ 1 ≤ kk ∧
      kk + 1 ≤ ind.x.length := by
  have hpos : 0 < (boxOfIdx tris ind.x).surfaceArea :=
    lt_of_le_of_ne (surfaceArea_nonneg (boxOfIdx_wf tris ind.x)) (Ne.symm hsa)
  have hlen : ∀ a, (ind.get a).length = ind.x.length := fun a => (idx_get_perm hwf a).length_eq
  obtain ⟨rest, hcands⟩ := axisCands_cons ind (by rw [hlen 0]; omega)
  have hrest : ∀ c ∈ rest, c ∈ axisCands ind := by
    intro c hc
    rw [hcands]
    exact List.mem_cons_of_mem _ hc
  have h00 : ((0 : ℕ), (0 : ℕ)) ∈ axisCands ind := by
    rw [hcands]
    exact List.mem_cons_self _ _
  have hcand : ∀ c ∈ axisCands ind, ∃ qc,
      costOf tris ind ((boxOfIdx tris ind.x).surfaceArea) c.1 c.2 = .num qc ∧
      qc ≤ 1 + (ind.x.length : ℚ) ∧ c.1 ≤ 2 ∧
      (c.2 + 2 ≤ ind.x.length ∨ qc = 1 + (ind.x.length : ℚ)) := by
    intro c hc
    obtain ⟨hc1, hc2⟩ := mem_axisCands hc
    refine ⟨costQ tris ind ((boxOfIdx tris ind.x).surfaceArea) c.1 c.2,
      costOf_eq_num tris ind _ hsa c.1 c.2, ?_, hc1, ?_⟩
    · have h := costQ_le tris hwf hpos c.1 c.2 hc2
      rw [hlen c.1] at h
      exact h
    · by_cases hk : c.2 + 2 ≤ ind.x.length
      · exact Or.inl hk
      · refine Or.inr ?_
        have hlc := hlen c.1
        have hceq : c.2 = (ind.get c.1).length - 1 := by omega
        rw [hceq, costQ_last tris hwf hpos c.1 (by rw [hlen c.1]; omega), hlen c.1]
  obtain ⟨q0, hq0, hq0le, _, _⟩ := hcand _ h00
  unfold setSplit splitFold
  rw [hcands, List.foldl_cons]
  have hstep1 : splitStep tris ind ((boxOfIdx tris ind.x).surfaceArea) (.posInf, none)
      (0, 0) = (.num q0, some (0, 1)) :=
    splitStep_posInf tris ind _ (0, 0) q0 hq0
  rw [hstep1]
  obtain ⟨q, a, kk, hfold, _, ha2, hk1, hk2⟩ :=
    splitFold_go tris ind ((boxOfIdx tris ind.x).surfaceArea) ind.x.length rest
      (.num q0, some (0, 1)) ⟨q0, 0, 1, rfl, hq0le, by omega, le_refl 1, hn2⟩
      (fun c hc => hcand c (hrest c hc))
  rw [hfold]
  exact ⟨a, kk, rfl, ha2, hk1, hk2⟩

/-! ### C3: the cost formula and the selection rule -/

theorem amendedCost_eq (tris : List Triangle) (ind : IdxLists) (a i : ℕ)
    (hi : i < (ind.get a).length) :
    amendedCost tris ind a i = costQ tris ind ((boxOfIdx tris ind.x).surfaceArea) a i := by
  simp only [amendedCost, costQ]
  rw [sweepFrontSA_getD _ _ _ hi]
  unfold sweepBackSA
  have hbl : (ind.get a).length - 1 - i < (ind.get a).reverse.length := by
    rw [List.length_reverse]
    omega
  rw [sweepFrontSA_getD _ _ _ hbl]
  have harith : (ind.get a).length - 1 - i + 1 = (ind.get a).length - i := by omega
  rw [harith]
  ring

theorem splitFold_sahFold_key (tris : List Triangle) (ind : IdxLists) (pa : ℚ)
    (F : ℕ × ℕ → (ℕ × ℕ) × ℚ)
    (hF : ∀ c ∈ axisCands ind, F c = ((c.1, c.2 + 1), costQ tris ind pa c.1 c.2))
    (hpa : pa ≠ 0) :
    ∀ (l : List (ℕ × ℕ)), (∀ c ∈ l, c ∈ axisCands ind) →
      ∀ (st : JsNum × Option (ℕ × ℕ)) (st' : Option ((ℕ × ℕ) × ℚ)),
      ((st = (.posInf, none) ∧ st' = none) ∨
        ∃ s q, st = (.num q, some s) ∧ st' = some (s, q)) →
      (l.foldl (splitStep tris ind pa) st).2 =
        Option.map Prod.fst ((l.map F).foldl sahStep st') := by
  intro l
  induction l with
  | nil =>
    intro _ st st' hR
    rcases hR with ⟨h1, h2⟩ | ⟨s, q, h1, h2⟩ <;> subst h1 <;> subst h2 <;> rfl
  | cons c l ih =>
    intro hmem st st' hR
    rw [List.map_cons, List.foldl_cons, List.foldl_cons]
    apply ih (fun d hd => hmem d (List.mem_cons_of_mem _ hd))
    have hc := hmem c (List.mem_cons_self _ _)
    rw [hF c hc]
    have hcost := costOf_eq_num tris ind pa hpa c.1 c.2
    rcases hR with ⟨h1, h2⟩ | ⟨s, q, h1, h2⟩
    · subst h1
      subst h2
      right
      exact ⟨(c.1, c.2 + 1), costQ tris ind pa c.1 c.2,
        splitStep_posInf tris ind pa c _ hcost, rfl⟩
    · subst h1
      subst h2
      simp only [splitStep, hcost, JsNum.lt, decide_eq_true_eq, sahStep]
      by_cases hlt : costQ tris ind pa c.1 c.2 < q
      · rw [if_pos hlt, if_pos hlt]
        exact Or.inr ⟨(c.1, c.2 + 1), costQ tris ind pa c.1 c.2, rfl, rfl⟩
      · rw [if_neg hlt, if_neg hlt]
        exact Or.inr ⟨s, q, rfl, rfl⟩

theorem sahFold_go : ∀ (L : List ((ℕ × ℕ) × ℚ)) (b sc : (ℕ × ℕ) × ℚ),
    L.foldl sahStep (some b) = some sc →
    (sc = b ∧ ∀ d ∈ L, b.2 ≤ d.2) ∨
      ∃ pre post, L = pre ++ sc :: post ∧ sc.2 < b.2 ∧
        (∀ d ∈ pre, sc.2 < d.2) ∧ ∀ d ∈ post, sc.2 ≤ d.2 := by
  intro L
  induction L with
  | nil =>
    intro b sc h
    left
    have hb : some b = some sc := h
    refine ⟨(Option.some.injEq _ _ ▸ hb).symm, ?_⟩
    intro d hd
    exact absurd hd (List.not_mem_nil d)
  | cons c L ih =>
    intro b sc h
    rw [List.foldl_cons] at h
    by_cases hlt : c.2 < b.2
    · have hstep : sahStep (some b) c = some c := by
        show (if c.2 < b.2 then some c else some b) = some c
        rw [if_pos hlt]
      rw [hstep] at h
      rcases ih c sc h with ⟨rfl, hall⟩ | ⟨pre, post, hL, hscb, hpre, hpost⟩
      · right
        refine ⟨[], L, rfl, hlt, ?_, hall⟩
        intro d hd
        exact absurd hd (List.not_mem_nil d)
      · right
        refine ⟨c :: pre, post, by rw [hL, List.cons_append], lt_trans hscb hlt, ?_, hpost⟩
        intro d hd
        rcases List.mem_cons.mp hd with rfl | hd
        · exact hscb
        · exact hpre d hd
    · have hstep : sahStep (some b) c = some b := by
        show (if c.2 < b.2 then some c else some b) = some b
        rw [if_neg hlt]
      rw [hstep] at h
      rcases ih b sc h with ⟨hscb, hall⟩ | ⟨pre, post, hL, hscb, hpre, hpost⟩
      · left
        refine ⟨hscb, ?_⟩
        intro d hd
        rcases List.mem_cons.mp hd with rfl | hd
        · exact not_lt.mp hlt
        · exact hall d hd
      · right
        refine ⟨c :: pre, post, by rw [hL, List.cons_append], hscb, ?_, hpost⟩
        intro d hd
        rcases List.mem_cons.mp hd with rfl | hd
        · exact lt_of_lt_of_le hscb (not_lt.mp hlt)
        · exact hpre d hd

theorem sahFold_spec (L : List ((ℕ × ℕ) × ℚ)) (sc : (ℕ × ℕ) × ℚ)
    (h : sahFold L = some sc) :
    ∃ pre post, L = pre ++ sc :: post ∧ (∀ d ∈ pre, sc.2 < d.2) ∧
      ∀ d ∈ post, sc.2 ≤ d.2 := by
  unfold sahFold at h
  cases L with
  | nil => simp at h
  | cons c L =>
    rw [List.foldl_cons] at h
    have hstep : sahStep none c = some c := rfl
    rw [hstep] at h
    rcases sahFold_go L c sc h with ⟨rfl, hall⟩ | ⟨pre, post, hL, hscb, hpre, hpost⟩
    · refine ⟨[], L, rfl, ?_, hall⟩
      intro d hd
      exact absurd hd (List.not_mem_nil d)
    · refine ⟨c :: pre, post, by rw [hL, List.cons_append], ?_, hpost⟩
      intro d hd
      rcases List.mem_cons.mp hd with rfl | hd
      · exact hscb
      · exact hpre d hd

/-- C3 counterexample: on the two-triangle scene the selection rule the claim
describes (candidates k in 1..N-1 only, back box of the last N - k
triangles) picks axis 0, but the code - whose back term reads
surfacesBack[N-1-i], the box of the last N - i triangles, and whose loop
also admits k = N - picks axis 1: the claim does not describe the code. -/
theorem c3_counterexample :
    setSplit tris2 (initIndices tris2) = some (1, 1) ∧
    specSetSplitC3 tris2 (initIndices tris2) = some (0, 1) := by
  constructor <;> decide

/-- C3 (amended): for every node whose parent box has nonzero surface area,
the code evaluates, for each axis a in {0,1,2} and each loop index i in
0..N-1 (split count k = i + 1 ranging over 1..N, not 1..N-1), the cost
1 + (SA(first i+1)/SA(parent))*(i+1) + (SA(last N-i)/SA(parent))*(N-1-i)
- the back box covers the last N - i triangles, one more than claimed -
and selects the first candidate attaining the minimum cost in iteration
order (axis 0 to 2, k low to high; a later tie never replaces the held
best because only a strict improvement updates it). -/
theorem c3_amended (tris : List Triangle) (ind : IdxLists)
    (hsa : (boxOfIdx tris ind.x).surfaceArea ≠ 0) :
    setSplit tris ind = (sahFold (amendedCands tris ind)).map Prod.fst ∧
    ∀ sc, sahFold (amendedCands tris ind) = some sc →
      ∃ pre post, amendedCands tris ind = pre ++ sc :: post ∧
        (∀ d ∈ pre, sc.2 < d.2) ∧ ∀ d ∈ post, sc.2 ≤ d.2 := by
  constructor
  · unfold setSplit splitFold amendedCands sahFold
    exact splitFold_sahFold_key tris ind ((boxOfIdx tris ind.x).surfaceArea) _
      (fun c hc => congrArg (fun z => (((c.1, c.2 + 1) : ℕ × ℕ), z))
        (amendedCost_eq tris ind c.1 c.2 (mem_axisCands hc).2))
      hsa (axisCands ind) (fun c hc => hc) (.posInf, none) none (Or.inl ⟨rfl, rfl⟩)
  · exact fun sc h => sahFold_spec _ sc h

/-- C3 witness: the amended description applied to the two-triangle scene,
whose parent surface area is nonzero. -/
theorem c3_witness :
    (boxOfIdx tris2 (initIndices tris2).x).surfaceArea ≠ 0 ∧
    setSplit tris2 (initIndices tris2) =
      (sahFold (amendedCands tris2 (initIndices tris2))).map Prod.fst :=
  ⟨by decide, (c3_amended tris2 (initIndices tris2) (by decide)).1⟩

/-! ### C5 and C6: the recursive builder -/

theorem filter_mem_perm {l target : List ℕ} (hl : l.Nodup) (ht : target.Nodup)
    (hsub : ∀ x ∈ target, x ∈ l) :
    (l.filter (fun j => decide (j ∈ target))).Perm target := by
  rw [List.perm_ext_iff_of_nodup (hl.filter _) ht]
  intro x
  rw [List.mem_filter, decide_eq_true_eq]
  constructor
  · exact fun h => h.2
  · exact fun hx => ⟨hsub x hx, hx⟩

theorem filter_not_mem_perm {l base : List ℕ} (k : ℕ) (hl : l.Nodup) (hb : base.Nodup)
    (hmem : ∀ x, x ∈ l ↔ x ∈ base) :
    (l.filter (fun j => decide (j ∉ base.take k))).Perm (base.drop k) := by
  have hnd : (base.take k ++ base.drop k).Nodup := by
    rw [List.take_append_drop]
    exact hb
  have hdisj := List.disjoint_of_nodup_append hnd
  rw [List.perm_ext_iff_of_nodup (hl.filter _) ((List.drop_sublist _ _).nodup hb)]
  intro x
  rw [List.mem_filter, decide_eq_true_eq]
  constructor
  · rintro ⟨hxl, hxnt⟩
    have hxb : x ∈ base.take k ++ base.drop k := by
      rw [List.take_append_drop]
      exact (hmem x).mp hxl
    rcases List.mem_append.mp hxb with h1 | h1
    · exact absurd h1 hxnt
    · exact h1
  · intro hx
    exact ⟨(hmem x).mpr (List.mem_of_mem_drop hx), fun hxt => hdisj hxt hx⟩

theorem get_elim {P : List ℕ → Prop} (s : IdxLists) (a' : ℕ)
    (hx : P s.x) (hy : P s.y) (hz : P s.z) : P (s.get a') := by
  unfold IdxLists.get
  split_ifs <;> assumption

theorem get_pair_elim {R : List ℕ → List ℕ → Prop} (s t : IdxLists) (a' : ℕ)
    (hx : R s.x t.x) (hy : R s.y t.y) (hz : R s.z t.z) : R (s.get a') (t.get a') := by
  unfold IdxLists.get
  split_ifs <;> assumption

theorem ccil_left_comp (ind : IdxLists) (hwf : IdxWF ind) (a k a' : ℕ) :
    ((constructCachedIndexList ind a k).1.get a').Perm ((ind.get a).take k) := by
  have hcomp : ∀ b : ℕ,
      (if b = a then (ind.get a).take k
        else (ind.get b).filter (fun j => decide (j ∈ (ind.get a).take k))).Perm
        ((ind.get a).take k) := by
    intro b
    split_ifs with hba
    · exact List.Perm.refl _
    · exact filter_mem_perm ((idx_get_perm hwf b).nodup_iff.mpr hwf.2.2)
        ((List.take_sublist _ _).nodup ((idx_get_perm hwf a).nodup_iff.mpr hwf.2.2))
        (fun x hx => (idx_get_perm hwf b).mem_iff.mpr
          ((idx_get_perm hwf a).mem_iff.mp (List.mem_of_mem_take hx)))
  exact @get_elim (fun l => l.Perm ((ind.get a).take k)) (constructCachedIndexList ind a k).1 a'
    (hcomp 0) (hcomp 1) (hcomp 2)

theorem ccil_right_comp (ind : IdxLists) (hwf : IdxWF ind) (a k a' : ℕ) :
    ((constructCachedIndexList ind a k).2.get a').Perm ((ind.get a).drop k) := by
  have hcomp : ∀ b : ℕ,
      (if b = a then (ind.get a).drop k
        else (ind.get b).filter (fun j => decide (j ∉ (ind.get a).take k))).Perm
        ((ind.get a).drop k) := by
    intro b
    split_ifs with hba
    · exact List.Perm.refl _
    · exact filter_not_mem_perm k ((idx_get_perm hwf b).nodup_iff.mpr hwf.2.2)
        ((idx_get_perm hwf a).nodup_iff.mpr hwf.2.2)
        (fun x => ((idx_get_perm hwf b).mem_iff).trans ((idx_get_perm hwf a).mem_iff).symm)
  exact @get_elim (fun l => l.Perm ((ind.get a).drop k)) (constructCachedIndexList ind a k).2 a'
    (hcomp 0) (hcomp 1) (hcomp 2)

theorem ccil_left_x (ind : IdxLists) (hwf : IdxWF ind) (a k : ℕ) :
    (constructCachedIndexList ind a k).1.x.Perm ((ind.get a).take k) :=
  ccil_left_comp ind hwf a k 0

theorem ccil_right_x (ind : IdxLists) (hwf : IdxWF ind) (a k : ℕ) :
    (constructCachedIndexList ind a k).2.x.Perm ((ind.get a).drop k) :=
  ccil_right_comp ind hwf a k 0

theorem ccil_left_wf (ind : IdxLists) (hwf : IdxWF ind) (a k : ℕ) :
    IdxWF (constructCachedIndexList ind a k).1 := by
  have h0 := ccil_left_comp ind hwf a k 0
  have h1 := ccil_left_comp ind hwf a k 1
  have h2 := ccil_left_comp ind hwf a k 2
  have htn : ((ind.get a).take k).Nodup :=
    (List.take_sublist _ _).nodup ((idx_get_perm hwf a).nodup_iff.mpr hwf.2.2)
  exact ⟨h1.trans h0.symm, h2.trans h0.symm, h0.nodup_iff.mpr htn⟩

theorem ccil_right_wf (ind : IdxLists) (hwf : IdxWF ind) (a k : ℕ) :
    IdxWF (constructCachedIndexList ind a k).2 := by
  have h0 := ccil_right_comp ind hwf a k 0
  have h1 := ccil_right_comp ind hwf a k 1
  have h2 := ccil_right_comp ind hwf a k 2
  have htn : ((ind.get a).drop k).Nodup :=
    (List.drop_sublist _ _).nodup ((idx_get_perm hwf a).nodup_iff.mpr hwf.2.2)
  exact ⟨h1.trans h0.symm, h2.trans h0.symm, h0.nodup_iff.mpr htn⟩

theorem ccil_sublist (ind : IdxLists) (a k a' : ℕ) :
    ((constructCachedIndexList ind a k).1.get a').Sublist (ind.get a') ∧
    ((constructCachedIndexList ind a k).2.get a').Sublist (ind.get a') := by
  have hL : ∀ b : ℕ,
      (if b = a then (ind.get a).take k
        else (ind.get b).filter (fun j => decide (j ∈ (ind.get a).take k))).Sublist
        (ind.get b) := by
    intro b
    split_ifs with hba
    · subst hba
      exact List.take_sublist _ _
    · exact List.filter_sublist _
  have hR : ∀ b : ℕ,
      (if b = a then (ind.get a).drop k
        else (ind.get b).filter (fun j => decide (j ∉ (ind.get a).take k))).Sublist
        (ind.get b) := by
    intro b
    split_ifs with hba
    · subst hba
      exact List.drop_sublist _ _
    · exact List.filter_sublist _
  constructor
  · exact @get_pair_elim (fun l m => l.Sublist m) (constructCachedIndexList ind a k).1 ind a'
      (hL 0) (hL 1) (hL 2)
  · exact @get_pair_elim (fun l m => l.Sublist m) (constructCachedIndexList ind a k).2 ind a'
      (hR 0) (hR 1) (hR 2)

theorem initIndices_wf (tris : List Triangle) : IdxWF (initIndices tris) := by
  unfold initIndices sortIndices IdxWF
  refine ⟨?_, ?_, ?_⟩
  · exact (List.perm_insertionSort _ _).trans (List.perm_insertionSort _ _).symm
  · exact (List.perm_insertionSort _ _).trans (List.perm_insertionSort _ _).symm
  · exact (List.perm_insertionSort _ _).nodup_iff.mpr (List.nodup_range _)

theorem initIndices_x_length (tris : List Triangle) :
    (initIndices tris).x.length = tris.length := by
  show (sortIndices tris 0 (List.range tris.length)).length = tris.length
  unfold sortIndices
  rw [(List.perm_insertionSort _ _).length_eq, List.length_range]

/-- The structural invariants any successful build establishes: the leaf
rule of C5, the disjoint partition of C6, and that the leaves together carry
exactly the node's index set. -/
theorem buildTree_ok_invariant (tris : List Triangle) :
    ∀ (fuel : ℕ) (ind : IdxLists) (t : Tree), IdxWF ind → ind.x ≠ [] →
      buildTree tris fuel ind = .ok t →
      leafRuleB t = true ∧ partitionOKB t = true ∧ t.leavesIdx.Perm ind.x := by
  intro fuel
  induction fuel with
  | zero =>
    intro ind t _ _ h
    exact absurd h (by simp [buildTree])
  | succ fuel ih =>
    intro ind t hwf hne h
    have hlen : ∀ a, (ind.get a).length = ind.x.length :=
      fun a => (idx_get_perm hwf a).length_eq
    simp only [buildTree] at h
    split at h
    next hleaf =>
      have ht : t = .leaf ind.x (boxOfIdx tris ind.x) := by
        injection h with h'
        exact h'.symm
      subst ht
      refine ⟨?_, rfl, List.Perm.refl _⟩
      simp only [leafRuleB, decide_eq_true_eq]
      refine ⟨List.length_pos.mpr hne, ?_⟩
      rw [hlen] at hleaf
      exact hleaf
    next hleaf =>
      rw [not_le, hlen] at hleaf
      have hn4 : 4 < ind.x.length := hleaf
      split at h
      next hnone =>
        exact absurd h (by simp)
      next a k hsome =>
        split at h
        next l r hl hr =>
          have ht : t = .node (boxOfIdx tris ind.x) a k l r := by
            injection h with h'
            exact h'.symm
          subst ht
          have hsa : (boxOfIdx tris ind.x).surfaceArea ≠ 0 := by
            intro h0
            rw [setSplit_none_of_sa_zero tris hwf h0] at hsome
            exact absurd hsome (by simp)
          obtain ⟨a', kk', hss, ha', hk1, hk2⟩ :=
            setSplit_bounds tris hwf (by omega) hsa
          rw [hsome] at hss
          have hpair := Option.some.inj hss
          have haa : a = a' := congrArg Prod.fst hpair
          have hkk : k = kk' := congrArg Prod.snd hpair
          subst haa
          subst hkk
          have hLwf := ccil_left_wf ind hwf a k
          have hRwf := ccil_right_wf ind hwf a k
          have hLx := ccil_left_x ind hwf a k
          have hRx := ccil_right_x ind hwf a k
          have hLlen : (constructCachedIndexList ind a k).1.x.length = k := by
            rw [hLx.length_eq, List.length_take, hlen]
            omega
          have hRlen : (constructCachedIndexList ind a k).2.x.length =
              ind.x.length - k := by
            rw [hRx.length_eq, List.length_drop, hlen]
          have hLne : (constructCachedIndexList ind a k).1.x ≠ [] := by
            intro h0
            rw [h0] at hLlen
            simp at hLlen
            omega
          have hRne : (constructCachedIndexList ind a k).2.x ≠ [] := by
            intro h0
            rw [h0] at hRlen
            simp at hRlen
            omega
          obtain ⟨hlr, hlp, hlperm⟩ := ih _ l hLwf hLne hl
          obtain ⟨hrr, hrp, hrperm⟩ := ih _ r hRwf hRne hr
          have hperm : (Tree.node (boxOfIdx tris ind.x) a k l r).leavesIdx.Perm ind.x := by
            show (l.leavesIdx ++ r.leavesIdx).Perm ind.x
            have h1 : (l.leavesIdx ++ r.leavesIdx).Perm
                ((ind.get a).take k ++ (ind.get a).drop k) :=
              (hlperm.trans hLx).append (hrperm.trans hRx)
            rw [List.take_append_drop] at h1
            exact h1.trans (idx_get_perm hwf a)
          have hllen : l.leavesIdx.length = k := by
            rw [(hlperm.trans hLx).length_eq, List.length_take, hlen]
            omega
          have hrlen : r.leavesIdx.length = ind.x.length - k := by
            rw [(hrperm.trans hRx).length_eq, List.length_drop, hlen]
          refine ⟨?_, ?_, hperm⟩
          · simp only [leafRuleB, Bool.and_eq_true, decide_eq_true_eq]
            refine ⟨?_, hlr, hrr⟩
            rw [hllen, hrlen]
            show 4 < k + (ind.x.length - k)
            omega
          · simp only [partitionOKB, Bool.and_eq_true]
            refine ⟨?_, hlp, hrp⟩
            unfold disjointB
            rw [List.all_eq_true]
            intro i hi
            rw [decide_eq_true_eq]
            intro hir
            have hit : i ∈ (ind.get a).take k := (hlperm.trans hLx).mem_iff.mp hi
            have hid : i ∈ (ind.get a).drop k := (hrperm.trans hRx).mem_iff.mp hir
            have hnd : ((ind.get a).take k ++ (ind.get a).drop k).Nodup := by
              rw [List.take_append_drop]
              exact (idx_get_perm hwf a).nodup_iff.mpr hwf.2.2
            exact (List.disjoint_of_nodup_append hnd) hit hid
        next e hl => exact absurd h (by simp)
        next l e hl hr => exact absurd h (by simp)

/-- C5 counterexample: five coincident degenerate triangles form a nonempty
scene the builder never finishes: every box has zero surface area, every
cost is NaN (0/0 with Infinity comparisons all false), setSplit selects
nothing and the recursion dereferences indices[undefined]; no recursion
depth produces a tree. -/
theorem c5_counterexample :
    tris5 ≠ [] ∧ ∀ (fuel : ℕ) (t : Tree),
      buildTree tris5 fuel (initIndices tris5) ≠ .ok t := by
  refine ⟨by decide, ?_⟩
  intro fuel t
  cases fuel with
  | zero => simp [buildTree]
  | succ f =>
    have hstep : buildTree tris5 (f + 1) (initIndices tris5) = .error .typeErr := rfl
    rw [hstep]
    simp

/-- C5 (amended): construction is not total - a nonempty scene whose boxes
all have zero surface area makes the builder throw - but whenever buildTree
does return a tree for a nonempty scene, the claimed leaf discipline holds:
a node is made a leaf exactly when its triangle count is at most
leafSize = 4 (every internal node covers more than 4, so an N = 1 node is a
leaf), and every leaf owns between 1 and 4 triangles. -/
theorem c5_amended (tris : List Triangle) (hne : tris ≠ []) (fuel : ℕ) (t : Tree)
    (h : buildTree tris fuel (initIndices tris) = .ok t) :
    leafRuleB t = true := by
  have hxne : (initIndices tris).x ≠ [] := by
    intro h0
    have hl := initIndices_x_length tris
    rw [h0] at hl
    simp at hl
    exact hne (List.length_eq_zero.mp hl.symm)
  exact (buildTree_ok_invariant tris fuel (initIndices tris) t
    (initIndices_wf tris) hxne h).1

/-- C5 witness: the one-triangle scene builds a single leaf satisfying the
leaf rule. -/
theorem c5_witness :
    tris1 ≠ [] ∧ buildTree tris1 1 (initIndices tris1) = .ok tree1 ∧
      leafRuleB tree1 = true :=
  ⟨by decide, by decide, c5_amended tris1 (by decide) 1 tree1 (by decide)⟩

/-- C6: for every tree the builder returns from a well-formed nonempty index
state, the children's leaf index sets are disjoint at every internal node,
the leaves together carry exactly the node's index set (each index in
exactly one leaf, count 1), and the partition step preserves relative order
on every axis: each child axis list is a sublist of the parent's axis
list - the split axis by take/drop, the other two by an order-preserving
membership filter. -/
theorem c6_partition (tris : List Triangle) :
    (∀ (fuel : ℕ) (ind : IdxLists) (t : Tree), IdxWF ind → ind.x ≠ [] →
      buildTree tris fuel ind = .ok t →
      partitionOKB t = true ∧ t.leavesIdx.Perm ind.x ∧
        ∀ i ∈ ind.x, t.leavesIdx.count i = 1) ∧
    ∀ (ind : IdxLists) (a k a' : ℕ),
      ((constructCachedIndexList ind a k).1.get a').Sublist (ind.get a') ∧
      ((constructCachedIndexList ind a k).2.get a').Sublist (ind.get a') := by
  constructor
  · intro fuel ind t hwf hne h
    obtain ⟨_, hp, hperm⟩ := buildTree_ok_invariant tris fuel ind t hwf hne h
    refine ⟨hp, hperm, ?_⟩
    intro i hi
    have hnd : t.leavesIdx.Nodup := hperm.nodup_iff.mpr hwf.2.2
    exact List.count_eq_one_of_mem hnd (hperm.mem_iff.mpr hi)
  · exact fun ind a k a' => ccil_sublist ind a k a'

/-- C6 witness: the invariants applied to the one-triangle build, and the
order-preservation fact at a concrete partition of the two-triangle scene. -/
theorem c6_witness :
    partitionOKB tree1 = true ∧ tree1.leavesIdx.count 0 = 1 ∧
    ((constructCachedIndexList (initIndices tris2) 0 1).1.get 1).Sublist
      ((initIndices tris2).get 1) := by
  obtain ⟨hp, _, hcount⟩ := (c6_partition tris1).1 1 (initIndices tris1) tree1
    (initIndices_wf tris1) (by decide) (by decide)
  exact ⟨hp, hcount 0 (by decide),
    ((c6_partition tris2).2 (initIndices tris2) 0 1 1).1⟩

end FSPT
